import Mathlib

/-!
Verification of the text-processing, API and schema layers of VietVoice-TTS.

Python strings are embedded as `List Char`; each definition below mirrors one
function of the source (`vietvoicetts/core/text_processor.py`,
`vietvoicetts/api/tts_engine.py`, `vietvoicetts/api/schemas.py`), translated
statement by statement.
-/

set_option maxRecDepth 8000

namespace VietVoice

/-- Python `str.strip()` whitespace test, restricted to the ASCII whitespace
characters (space, tab, newline, carriage return, vertical tab, form feed);
the Unicode whitespace code points Python additionally strips never survive
the cleaning pipeline, which replaces every non-ASCII character by a space. -/
def isPySpace (c : Char) : Bool :=
  c == ' ' || c == '\t' || c == '\n' || c == '\r' || c == (Char.ofNat 11) || c == (Char.ofNat 12)

/-- Drop trailing whitespace, as Python `str.rstrip()`. -/
def dropTrailingWs : List Char → List Char
  | [] => []
  | a :: rest =>
    if dropTrailingWs rest = [] ∧ isPySpace a then [] else a :: dropTrailingWs rest

/-- Python `str.strip()`. -/
def pyStrip (l : List Char) : List Char :=
  dropTrailingWs (l.dropWhile isPySpace)

/-- Python `text.split("\n")`: split at every newline, keeping empty pieces. -/
def splitOnNl : List Char → List (List Char)
  | [] => [[]]
  | c :: rest =>
    if c = '\n' then [] :: splitOnNl rest
    else
      match splitOnNl rest with
      | [] => [[c]]
      | h :: t => (c :: h) :: t

/-- Collapse every run of two or more copies of `c` to a single copy:
the effect of Python `re.sub(c+, c, s)` for a single character `c`. -/
def squeeze (c : Char) : List Char → List Char
  | [] => []
  | [a] => [a]
  | a :: b :: rest =>
    if a = c ∧ b = c then squeeze c (b :: rest)
    else a :: squeeze c (b :: rest)

/-- The alphanumeric characters of `clean_text`'s `alphabet_chars`. -/
def alphabetChars : List Char :=
  "abcdefghijklmnopqrstuvwxyzABCDEFGHIJKLMNOPQRSTUVWXYZ0123456789".toList

/-- `vietnamese_chars` from `clean_text`. -/
def vietnameseChars : List Char :=
  "àáảãạăằắẳẵặâầấẩẫậèéẻẽẹêềếểễệđìíỉĩịòóỏõọôồốổỗộơờớởỡợùúủũụưừứửữựỳỵỷỹýỳỵỷỹ".toList

/-- `vietnamese_chars.upper()` from `clean_text` (Python `str.upper` applied
to each accented letter). -/
def vietnameseCharsUpper : List Char :=
  "ÀÁẢÃẠĂẰẮẲẴẶÂẦẤẨẪẬÈÉẺẼẸÊỀẾỂỄỆĐÌÍỈĨỊÒÓỎÕỌÔỒỐỔỖỘƠỜỚỞỠỢÙÚỦŨỤƯỪỨỬỮỰỲỴỶỸÝỲỴỶỸ".toList

/-- `punctuation_chars = " .,!?'@$%&/:;()"` from `clean_text`
(the apostrophe written via its code point). -/
def punctuationChars : List Char :=
  [' ', '.', ',', '!', '?', Char.ofNat 39, '@', '$', '%', '&', '/', ':', ';', '(', ')']

/-- `all_valid_chars` from `clean_text` (as a set: the Python code
deduplicates with `list(set(...))`, and only membership in the regex
character class matters). -/
def validChars : List Char :=
  alphabetChars ++ vietnameseChars ++ vietnameseCharsUpper ++ punctuationChars

/-- Membership in the regex character class `[^all_valid_chars]` is negated
membership here. -/
def isValidChar (c : Char) : Bool :=
  validChars.contains c

/-- One semicolon/colon/parenthesis, as targeted by `re.sub(r'[;:()]', ',', text)`. -/
def isSemiColonParen (c : Char) : Bool :=
  c == ';' || c == ':' || c == '(' || c == ')'

/-- Python `text.endswith(('.', '?', '!', ','))`. -/
def isTermPunct (c : Char) : Bool :=
  c == '.' || c == '?' || c == '!' || c == ','

def endsWithTermPunct (l : List Char) : Bool :=
  (l.getLast?.map isTermPunct).getD false

/-- The newline branch of `clean_text`: strip each line, drop blank lines,
append a period to any line that does not already end with `"."`, and join
with single spaces. -/
def fixLine (l : List Char) : List Char :=
  if l.getLast? = some '.' then l else l ++ ['.']

def joinLines (s : List Char) : List Char :=
  List.intercalate [' ']
    (((((splitOnNl s).map pyStrip).filter (fun l => l ≠ [])).map fixLine))

/-- The straight-line part of `TextProcessor.clean_text` after the newline
branch: regex substitutions, strip, and the final period append.  The regex
`[^all_valid_chars]` substitution becomes a character map;
`re.sub(r'\s+', ' ', ...)` is the collapse of space runs, because at that
point of the pipeline every whitespace character has already been replaced
by a plain space. -/
def clean_core (s1 : List Char) : List Char :=
  let s2 := s1.map (fun c => if isValidChar c then c else ' ')
  let s3 := pyStrip s2
  let s4 := s3.map (fun c => if isSemiColonParen c then ',' else c)
  let s5 := squeeze '.' s4
  let s6 := squeeze ',' s5
  let s7 := squeeze ' ' s6
  if endsWithTermPunct s7 then s7 else s7 ++ ['.']

/-- `TextProcessor.clean_text`. -/
def clean_text (s : List Char) : List Char :=
  clean_core (if s.contains '\n' then joinLines s else s)

/-- "every character of `l` is in the valid set" -/
def AllValid (l : List Char) : Prop := ∀ c ∈ l, isValidChar c = true

/-- No two adjacent occurrences of `c`. -/
def NoAdj (c : Char) : List Char → Prop
  | [] => True
  | [_] => True
  | a :: b :: rest => ¬(a = c ∧ b = c) ∧ NoAdj c (b :: rest)

/-- A string with neither leading nor trailing whitespace. -/
def Stripped (l : List Char) : Prop :=
  (∀ a, l.head? = some a → isPySpace a = false) ∧
    (∀ a, l.getLast? = some a → isPySpace a = false)

/-- No semicolon, colon or parenthesis occurs. -/
def NoSemi (l : List Char) : Prop := ∀ c ∈ l, isSemiColonParen c = false

/-! ### `TextProcessor.chunk_text` -/

/-- Python `str.split()` with no separator (used for word counting and word
packing): split on whitespace runs, dropping empty pieces.  The accumulator
holds the current word reversed. -/
def wsGo : List Char → List Char → List (List Char)
  | [], cur => if cur = [] then [] else [cur.reverse]
  | c :: rest, cur =>
    if isPySpace c then
      if cur = [] then wsGo rest [] else cur.reverse :: wsGo rest []
    else wsGo rest (c :: cur)

def pySplitWs (l : List Char) : List (List Char) := wsGo l []

/-- A sentence-final character for `re.split(r'(?<=[.!?]) +', ...)`. -/
def isSentEnd (c : Char) : Bool := c == '.' || c == '!' || c == '?'

/-- `re.split(r'(?<=[.!?]) +', text)`: cut after every `.`/`!`/`?` that is
followed by at least one space, the matched space run being consumed.  The
`dropping` flag is true while inside the consumed space run (a match's `+`
is greedy, so the whole run is dropped). -/
def sentGo : Bool → List Char → List Char → List (List Char)
  | _, cur, [] => [cur.reverse]
  | dropping, cur, c :: rest =>
    if dropping ∧ c = ' ' then sentGo true cur rest
    else if isSentEnd c ∧ rest.head? = some ' ' then
      (cur.reverse ++ [c]) :: sentGo true [] rest
    else sentGo false (c :: cur) rest

/-- Python `s.split(', ')`: split on the exact two-character separator,
scanning left to right. -/
def commaGo : List Char → List Char → List (List Char)
  | cur, [] => [cur.reverse]
  | cur, ',' :: ' ' :: rest => cur.reverse :: commaGo [] rest
  | cur, c :: rest => commaGo (c :: cur) rest

/-- The word-boundary packing loop of `chunk_text` for an over-long comma
part (`current_part` accumulation). -/
def packWords (mc : Nat) : List (List Char) → List Char → List (List Char)
  | [], current => if pyStrip current ≠ [] then [pyStrip current] else []
  | w :: ws, current =>
    if current ≠ [] ∧ current.length + 1 + w.length > mc then
      (if pyStrip current ≠ [] then [pyStrip current] else []) ++ packWords mc ws w
    else
      packWords mc ws (if current = [] then w else current ++ ' ' :: w)

/-- Processing of one comma-delimited part (`for part in s.split(', ')`). -/
def partPieces (mc : Nat) (rawPart : List Char) : List (List Char) :=
  let part := pyStrip rawPart
  if part = [] then []
  else if part.length ≤ mc then [part]
  else packWords mc (pySplitWs part) []

/-- Processing of one regex-split sentence of `chunk_text`. -/
def sentencePieces (mc : Nat) (s0 : List Char) : List (List Char) :=
  let s := pyStrip s0
  if s = [] then []
  else if s.length ≤ mc then [s]
  else (commaGo [] s).flatMap (partPieces mc)

/-- The full `sentences` list built by the first phase of `chunk_text`. -/
def buildSentences (mc : Nat) (text : List Char) : List (List Char) :=
  (sentGo false [] (pyStrip text)).flatMap (sentencePieces mc)

/-- The greedy packing loop of `chunk_text` (`current_chunk` accumulation). -/
def packSentences (mc : Nat) : List (List Char) → List Char → List (List Char)
  | [], current => if current ≠ [] then [pyStrip current] else []
  | s :: ss, current =>
    if current ≠ [] ∧ current.length + 1 + s.length > mc then
      pyStrip current :: packSentences mc ss s
    else
      packSentences mc ss (if current = [] then s else current ++ ' ' :: s)

/-- The post-pass of `chunk_text` that merges very short chunks; `many` is
`len(chunks) > 1` evaluated on the original chunk list, `final` is the
accumulated `final_chunks`.  When the current chunk is last (`rest = []`),
`final.getLast?` is `some` exactly when `i > 0 and final_chunks` holds. -/
def mergeShortGo (mc : Nat) (many : Bool) : List (List Char) → List (List Char) → List (List Char)
  | final, [] => final
  | final, [current] =>
    if (pySplitWs current).length < 4 ∧ many = true then
      match final.getLast? with
      | some prev =>
        if (prev ++ ' ' :: current).length ≤ mc then
          final.dropLast ++ [prev ++ ' ' :: current]
        else final ++ [current]
      | none => final ++ [current]
    else final ++ [current]
  | final, current :: next :: rest2 =>
    if (pySplitWs current).length < 4 ∧ many = true ∧
        (current ++ ' ' :: next).length ≤ mc then
      mergeShortGo mc many (final ++ [current ++ ' ' :: next]) rest2
    else
      mergeShortGo mc many (final ++ [current]) (next :: rest2)

/-- `TextProcessor.chunk_text`. -/
def chunk_text (text : List Char) (mc : Nat) : List (List Char) :=
  if pyStrip text = [] then []
  else
    let sentences := buildSentences mc text
    if sentences = [] then []
    else
      let chunks := packSentences mc sentences []
      mergeShortGo mc (decide (1 < chunks.length)) [] chunks

/-! The invariants carried by `chunk_text`'s three phases (claim C1). -/

/-- What is true of every element of `sentences` in `chunk_text`. -/
def SentOK (mc : Nat) (s : List Char) : Prop :=
  s ≠ [] ∧ pyStrip s = s ∧ (s.length ≤ mc ∨ ∀ c ∈ s, isPySpace c = false)

/-- What is true of every chunk produced by the packing / merge phases. -/
def ChunkOK (mc : Nat) (ch : List Char) : Prop :=
  ch ≠ [] ∧ (ch.length ≤ mc ∨ ∀ c ∈ ch, isPySpace c = false)

/-- Invariant of the `current_part` accumulator in the word-packing loop. -/
def WInv (mc : Nat) (cur : List Char) : Prop :=
  cur = [] ∨ cur.length ≤ mc ∨ ∀ c ∈ cur, isPySpace c = false

/-- Invariant of the `current_chunk` accumulator in the greedy packing loop. -/
def CInv (mc : Nat) (cur : List Char) : Prop :=
  cur = [] ∨ (cur ≠ [] ∧ pyStrip cur = cur ∧ (cur.length ≤ mc ∨ ∀ c ∈ cur, isPySpace c = false))

/-! The greedy-packing overflow invariant and the short-chunk merge policy
(claim C6). -/

/-- Any two adjacent chunks overflow the budget when joined. -/
def AdjOver (mc : Nat) : List (List Char) → Prop
  | [] => True
  | [_] => True
  | x :: y :: r => mc < x.length + 1 + y.length ∧ AdjOver mc (y :: r)

/-- Modelled from the spec (claim C6): the post-pass policy as the claim
states it — a chunk with fewer than `4` words (when the original chunk list
has more than one element) is merged with the *following* chunk when that
merge fits within `max_chars`, otherwise with the *preceding* accumulated
chunk when that fits, and is kept unmerged only when neither merge fits. -/
def specMergeGo (mc : Nat) (many : Bool) : List (List Char) → List (List Char) → List (List Char)
  | final, [] => final
  | final, [current] =>
    if (pySplitWs current).length < 4 ∧ many = true then
      match final.getLast? with
      | some prev =>
        if (prev ++ ' ' :: current).length ≤ mc then
          final.dropLast ++ [prev ++ ' ' :: current]
        else final ++ [current]
      | none => final ++ [current]
    else final ++ [current]
  | final, current :: next :: rest2 =>
    if (pySplitWs current).length < 4 ∧ many = true then
      if (current ++ ' ' :: next).length ≤ mc then
        specMergeGo mc many (final ++ [current ++ ' ' :: next]) rest2
      else
        match final.getLast? with
        | some prev =>
          if (prev ++ ' ' :: current).length ≤ mc then
            specMergeGo mc many (final.dropLast ++ [prev ++ ' ' :: current]) (next :: rest2)
          else specMergeGo mc many (final ++ [current]) (next :: rest2)
        | none => specMergeGo mc many (final ++ [current]) (next :: rest2)
    else specMergeGo mc many (final ++ [current]) (next :: rest2)

/-- The pipeline of `chunk_text` with the post-pass replaced by the merge
policy exactly as the spec states it. -/
def chunk_text_specMerge (text : List Char) (mc : Nat) : List (List Char) :=
  if pyStrip text = [] then []
  else
    let sentences := buildSentences mc text
    if sentences = [] then []
    else
      let chunks := packSentences mc sentences []
      specMergeGo mc (decide (1 < chunks.length)) [] chunks

/-! ### Vocabulary loading and lookup (claim C7) -/

/-- Python `char.rstrip('\n')` applied to one raw line of the vocabulary
file (a line as yielded by file iteration, trailing newline included). -/
def rstripNl (l : List Char) : List Char :=
  (l.reverse.dropWhile (fun c => c = '\n')).reverse

/-- `TextProcessor._load_vocab`: insert each stripped line into a dict with
its line number as value.  A later duplicate line overwrites the earlier
entry, exactly as Python dict assignment does. -/
def _load_vocab (lines : List (List Char)) : List Char → Option Nat :=
  lines.enum.foldl (fun m p => fun k => if k = rstripNl p.2 then some p.1 else m k)
    (fun _ => none)

/-- `TextProcessor.text_to_indices`: `get(c, 0)` per character (the numpy
index arrays become lists), then `np.stack(list_idx_tensors, axis=0)`.
`np.stack` raises `ValueError` when given no arrays or arrays of unequal
length; that raised error is modelled by `none`. -/
def text_to_indices (lines : List (List Char)) (texts : List (List (List Char))) :
    Option (List (List Nat)) :=
  match texts.map (fun t => t.map (fun c => (_load_vocab lines c).getD 0)) with
  | [] => none
  | r :: rs => if rs.all (fun v => v.length = r.length) then some (r :: rs) else none

/-! ### Reported audio duration (claim C8) -/

/-- Modelled from the spec: the synthesis result (`FinalWaveform`, a
"fixed-point (16-bit signed) audio buffer") is persisted as a WAV file and
read back whole by `synthesize_to_bytes`.  A PCM WAV container prepends a
44-byte RIFF/fmt/data header of container metadata to the sample data, each
16-bit sample occupying 2 bytes.  The wav-writing engine code
(`TTSEngine.synthesize`) is not under `src/`; only its callers are. -/
def wavFileByteLength (numSamples : Nat) : Nat := 44 + 2 * numSamples

/-- The duration computed by `synthesize_async`:
`len(audio_bytes) / (sample_rate * 2)`, applied to the whole WAV byte
string.  Python float division is modelled exactly in `ℚ`. -/
def durationSecondsReported (numSamples sampleRate : Nat) : ℚ :=
  (wavFileByteLength numSamples : ℚ) / ((sampleRate : ℚ) * 2)

/-- Modelled from the spec: `duration(waveform, sampleRate)` is
`len(waveform) / sampleRate`, counting samples only. -/
def durationSecondsSpec (numSamples sampleRate : Nat) : ℚ :=
  (numSamples : ℚ) / (sampleRate : ℚ)

/-! ### `synthesize_async` and the shared engine configuration (claim C9) -/

/-- The mutable fields of the shared singleton engine's `ModelConfig` that
`synthesize_async` touches or reads. -/
structure EngineConfig where
  speed : ℚ
  sample_rate : Nat

/-- `synthesize_async` (tts_engine.py): save `engine.config.speed`, write the
per-request speed onto the shared config, run the blocking
`synthesize_to_bytes` in a worker thread, and restore the original speed
only on the success path; the `except` branch re-raises without restoring.
The underlying synthesis is a function from the (mutated) shared config to
`Option` audio bytes, `none` modelling a raised exception; the returned
`EngineConfig` is the state of the shared config when the call ends. -/
def synthesize_async (cfg : EngineConfig) (speed : ℚ)
    (synth : EngineConfig → Option (List Nat)) :
    Except EngineConfig (EngineConfig × List Nat × Nat × ℚ) :=
  let cfg1 := EngineConfig.mk speed cfg.sample_rate
  match synth cfg1 with
  | none => Except.error cfg1
  | some audioBytes =>
    let cfg2 := EngineConfig.mk cfg.speed cfg1.sample_rate
    Except.ok (cfg2, audioBytes, cfg2.sample_rate,
      (audioBytes.length : ℚ) / ((cfg2.sample_rate : ℚ) * 2))

/-! ### HTTP request schema validation (claim C10) -/

inductive Gender
  | male
  | female

inductive Group
  | story
  | news
  | audiobook
  | interview
  | review

inductive Area
  | northern
  | southern
  | central

inductive Emotion
  | neutral
  | serious
  | monotone
  | sad
  | surprised
  | happy
  | angry

/-- The field values of an incoming `SynthesizeRequest` body; `speed` as an
exact rational (the float bounds 0.25 and 2.0 are exactly representable). -/
structure SynthesizeRequestIn where
  text : List Char
  speed : ℚ
  output_format : String
  gender : Option Gender
  group : Option Group
  area : Option Area
  emotion : Option Emotion
  sample_iteration : Option Int

/-- `text: Field(min_length=1, max_length=500)`. -/
def validateText (s : List Char) : Except String (List Char) :=
  if s.length < 1 then Except.error "text too short"
  else if 500 < s.length then Except.error "text too long"
  else Except.ok s

/-- `speed: Field(0.9, ge=0.25, le=2.0)`. -/
def validateSpeed (q : ℚ) : Except String ℚ :=
  if q < 1/4 then Except.error "speed below minimum"
  else if 2 < q then Except.error "speed above maximum"
  else Except.ok q

/-- `output_format: Literal["wav"]`. -/
def validateFormat (f : String) : Except String String :=
  if f = "wav" then Except.ok f else Except.error "unsupported output_format"

/-- `sample_iteration: Optional[int] = Field(None, ge=0)`. -/
def validateSampleIteration : Option Int → Except String (Option Int)
  | none => Except.ok none
  | some n => if n < 0 then Except.error "negative sample_iteration" else Except.ok (some n)

/-- Schema validation of `SynthesizeRequest`, field by field as pydantic
performs it; the first failing field rejects the request. -/
def parseSynthesizeRequest (r : SynthesizeRequestIn) : Except String SynthesizeRequestIn :=
  match validateText r.text with
  | Except.error e => Except.error e
  | Except.ok t =>
    match validateSpeed r.speed with
    | Except.error e => Except.error e
    | Except.ok sp =>
      match validateFormat r.output_format with
      | Except.error e => Except.error e
      | Except.ok f =>
        match validateSampleIteration r.sample_iteration with
        | Except.error e => Except.error e
        | Except.ok si =>
          Except.ok (SynthesizeRequestIn.mk t sp f r.gender r.group r.area r.emotion si)

/-- A route handler (e.g. `synthesize_stream`): the framework validates the
body against the schema before the handler body — and hence any synthesis
work — runs. -/
def handleSynthesize {α : Type} (synth : SynthesizeRequestIn → α)
    (r : SynthesizeRequestIn) : Except String α :=
  (parseSynthesizeRequest r).map synth

example : clean_text "a?\nb".toList = "a?. b.".toList := by decide
example : clean_text "".toList = ".".toList := by decide
example : clean_text "  Xin   chào;; thế giới!! ".toList = "Xin chào, thế giới!!".toList := by decide

/-! Basic structural lemmas about the string helpers. -/

theorem squeeze_sublist (c : Char) : ∀ l : List Char, (squeeze c l).Sublist l
  | [] => by simp [squeeze]
  | [a] => by simp [squeeze]
  | a :: b :: rest => by
    by_cases hab : a = c ∧ b = c
    · simp only [squeeze, if_pos hab]
      exact (squeeze_sublist c (b :: rest)).cons a
    · simp only [squeeze, if_neg hab]
      exact (squeeze_sublist c (b :: rest)).cons₂ a

theorem dropTrailingWs_sublist : ∀ l : List Char, (dropTrailingWs l).Sublist l
  | [] => by simp [dropTrailingWs]
  | a :: rest => by
    simp only [dropTrailingWs]
    split
    · exact List.nil_sublist _
    · exact (dropTrailingWs_sublist rest).cons₂ a

theorem pyStrip_sublist (l : List Char) : (pyStrip l).Sublist l :=
  (dropTrailingWs_sublist _).trans (List.dropWhile_sublist _)

theorem allValid_of_sublist {l₁ l₂ : List Char} (h : l₁.Sublist l₂) (hv : AllValid l₂) :
    AllValid l₁ := fun c hc => hv c (h.subset hc)

theorem allValid_map_valid (l : List Char) :
    AllValid (l.map (fun c => if isValidChar c then c else ' ')) := by
  intro c hc
  rcases List.mem_map.1 hc with ⟨a, _, rfl⟩
  by_cases h : isValidChar a = true
  · simp [h]
  · simp [h]
    decide

theorem allValid_map_semi {l : List Char} (hv : AllValid l) :
    AllValid (l.map (fun c => if isSemiColonParen c then ',' else c)) := by
  intro c hc
  rcases List.mem_map.1 hc with ⟨a, ha, rfl⟩
  by_cases h : isSemiColonParen a = true
  · simp [h]
    decide
  · simpa [h] using hv a ha

theorem clean_core_valid_chars_and_terminal (s1 : List Char) :
    (∀ c ∈ clean_core s1, isValidChar c = true) ∧
      endsWithTermPunct (clean_core s1) = true := by
  have hX : AllValid (squeeze ' ' (squeeze ',' (squeeze '.'
      ((pyStrip (s1.map (fun c => if isValidChar c then c else ' '))).map
        (fun c => if isSemiColonParen c then ',' else c))))) := by
    apply allValid_of_sublist (squeeze_sublist _ _)
    apply allValid_of_sublist (squeeze_sublist _ _)
    apply allValid_of_sublist (squeeze_sublist _ _)
    apply allValid_map_semi
    exact allValid_of_sublist (pyStrip_sublist _) (allValid_map_valid _)
  simp only [clean_core]
  constructor
  · intro c hc
    split at hc
    · exact hX c hc
    · rcases List.mem_append.1 hc with h | h
      · exact hX c h
      · simp at h
        subst h
        decide
  · split
    · assumption
    · simp [endsWithTermPunct, List.getLast?_concat]
      decide

/-- C3: every output character of `clean_text` lies in the allowed character
set, and the output always ends with one of `.`, `?`, `!`, `,` — for every
input, including empty and whitespace-only strings. -/
theorem clean_text_valid_chars_and_terminal (s : List Char) :
    (∀ c ∈ clean_text s, isValidChar c = true) ∧
      endsWithTermPunct (clean_text s) = true := by
  simpa [clean_text] using
    clean_core_valid_chars_and_terminal (if s.contains '\n' then joinLines s else s)

/-! Head/last preservation and run-freeness lemmas used for idempotence. -/

theorem squeeze_head? (c : Char) : ∀ l : List Char, (squeeze c l).head? = l.head?
  | [] => by simp [squeeze]
  | [a] => by simp [squeeze]
  | a :: b :: rest => by
    by_cases hab : a = c ∧ b = c
    · have hb := squeeze_head? c (b :: rest)
      simp only [squeeze, if_pos hab]
      rw [hb]
      simp [hab.1, hab.2]
    · simp [squeeze, if_neg hab]

theorem squeeze_ne_nil {c : Char} {l : List Char} (h : l ≠ []) : squeeze c l ≠ [] := by
  intro hsq
  have hh := squeeze_head? c l
  rw [hsq] at hh
  cases l with
  | nil => exact h rfl
  | cons x xs => simp at hh

theorem squeeze_getLast? (c : Char) : ∀ l : List Char, (squeeze c l).getLast? = l.getLast?
  | [] => by simp [squeeze]
  | [a] => by simp [squeeze]
  | a :: b :: rest => by
    have hb := squeeze_getLast? c (b :: rest)
    by_cases hab : a = c ∧ b = c
    · simp only [squeeze, if_pos hab]
      rw [hb, List.getLast?_cons_cons]
    · simp only [squeeze, if_neg hab]
      have hne : squeeze c (b :: rest) ≠ [] := squeeze_ne_nil (by simp)
      obtain ⟨x, xs, hx⟩ := List.exists_cons_of_ne_nil hne
      rw [hx, List.getLast?_cons_cons, ← hx, hb, List.getLast?_cons_cons]

theorem noAdj_squeeze (c : Char) : ∀ l : List Char, NoAdj c (squeeze c l)
  | [] => by simp [squeeze, NoAdj]
  | [a] => by simp [squeeze, NoAdj]
  | a :: b :: rest => by
    by_cases hab : a = c ∧ b = c
    · simp only [squeeze, if_pos hab]
      exact noAdj_squeeze c (b :: rest)
    · simp only [squeeze, if_neg hab]
      have ih := noAdj_squeeze c (b :: rest)
      have hh := squeeze_head? c (b :: rest)
      cases hsq : squeeze c (b :: rest) with
      | nil => simp [NoAdj]
      | cons x xs =>
        rw [hsq] at ih hh
        simp at hh
        exact ⟨by rw [hh]; exact hab, ih⟩

theorem noAdj_squeeze_other (c d : Char) :
    ∀ l : List Char, NoAdj d l → NoAdj d (squeeze c l)
  | [], _ => by simp [squeeze, NoAdj]
  | [a], _ => by simp [squeeze, NoAdj]
  | a :: b :: rest, h => by
    obtain ⟨h1, h2⟩ := h
    by_cases hab : a = c ∧ b = c
    · simp only [squeeze, if_pos hab]
      exact noAdj_squeeze_other c d (b :: rest) h2
    · simp only [squeeze, if_neg hab]
      have ih := noAdj_squeeze_other c d (b :: rest) h2
      have hh := squeeze_head? c (b :: rest)
      cases hsq : squeeze c (b :: rest) with
      | nil => simp [NoAdj]
      | cons x xs =>
        rw [hsq] at ih hh
        simp at hh
        exact ⟨by rw [hh]; exact h1, ih⟩

theorem squeeze_eq_of_noAdj (c : Char) : ∀ l : List Char, NoAdj c l → squeeze c l = l
  | [], _ => by simp [squeeze]
  | [a], _ => by simp [squeeze]
  | a :: b :: rest, h => by
    obtain ⟨h1, h2⟩ := h
    simp only [squeeze, if_neg h1]
    rw [squeeze_eq_of_noAdj c (b :: rest) h2]

theorem noAdj_append_single (c d : Char) :
    ∀ l : List Char, NoAdj c l →
      (∀ a, l.getLast? = some a → ¬(a = c ∧ d = c)) → NoAdj c (l ++ [d])
  | [], _, _ => by simp [NoAdj]
  | [a], _, h => by
    refine ⟨h a (by simp), trivial⟩
  | a :: b :: rest, h, hl => by
    obtain ⟨h1, h2⟩ := h
    exact ⟨h1, noAdj_append_single c d (b :: rest) h2
      (fun x hx => hl x (by rw [List.getLast?_cons_cons]; exact hx))⟩

theorem head?_dropWhile_not (p : Char → Bool) :
    ∀ l : List Char, ∀ a, (l.dropWhile p).head? = some a → p a = false
  | [], a, h => by simp [List.dropWhile] at h
  | b :: rest, a, h => by
    by_cases hb : p b = true
    · rw [List.dropWhile_cons_of_pos hb] at h
      exact head?_dropWhile_not p rest a h
    · rw [List.dropWhile_cons_of_neg (by simpa using hb)] at h
      simp at h
      rw [← h]
      simpa using hb

theorem dropTrailingWs_head? :
    ∀ l : List Char, (dropTrailingWs l).head? = l.head? ∨ dropTrailingWs l = []
  | [] => Or.inr rfl
  | a :: rest => by
    by_cases h : dropTrailingWs rest = [] ∧ isPySpace a = true
    · right
      simp [dropTrailingWs, h]
    · left
      simp [dropTrailingWs, h]

theorem getLast?_dropTrailingWs_not :
    ∀ l : List Char, ∀ a, (dropTrailingWs l).getLast? = some a → isPySpace a = false
  | [], a, h => by simp [dropTrailingWs] at h
  | b :: rest, a, h => by
    simp only [dropTrailingWs] at h
    split at h
    · simp at h
    · rename_i hcond
      cases hx : dropTrailingWs rest with
      | nil =>
        rw [hx] at h
        simp at h
        rw [← h]
        simp [hx] at hcond
        simpa using hcond
      | cons x xs =>
        rw [hx] at h
        rw [List.getLast?_cons_cons, ← hx] at h
        exact getLast?_dropTrailingWs_not rest a h

theorem stripped_pyStrip (l : List Char) : Stripped (pyStrip l) := by
  constructor
  · intro a ha
    rcases dropTrailingWs_head? (l.dropWhile isPySpace) with h | h
    · rw [pyStrip] at ha
      rw [h] at ha
      exact head?_dropWhile_not _ _ a ha
    · rw [pyStrip, h] at ha
      simp at ha
  · intro a ha
    exact getLast?_dropTrailingWs_not _ a ha

theorem dropTrailingWs_eq_self :
    ∀ l : List Char, (∀ a, l.getLast? = some a → isPySpace a = false) →
      dropTrailingWs l = l
  | [], _ => rfl
  | [a], h => by
    have ha := h a (by simp)
    simp [dropTrailingWs, ha]
  | a :: b :: rest, h => by
    have hr : dropTrailingWs (b :: rest) = b :: rest :=
      dropTrailingWs_eq_self (b :: rest)
        (fun x hx => h x (by rw [List.getLast?_cons_cons]; exact hx))
    have hne : ¬ (dropTrailingWs (b :: rest) = [] ∧ isPySpace a = true) := by
      rw [hr]
      simp
    conv_lhs => unfold dropTrailingWs
    rw [if_neg hne, hr]

theorem pyStrip_eq_self_of_stripped {l : List Char} (h : Stripped l) : pyStrip l = l := by
  cases l with
  | nil => rfl
  | cons a rest =>
    have ha : isPySpace a = false := h.1 a (by simp)
    rw [pyStrip, List.dropWhile_cons_of_neg (by simp [ha])]
    exact dropTrailingWs_eq_self _ h.2

theorem isPySpace_semiRepl (c : Char) :
    isPySpace (if isSemiColonParen c then ',' else c) = isPySpace c := by
  by_cases h : isSemiColonParen c = true
  · have hc : c = ';' ∨ c = ':' ∨ c = '(' ∨ c = ')' := by
      simpa [isSemiColonParen, or_assoc] using h
    rcases hc with rfl | rfl | rfl | rfl <;> decide
  · simp [h]

theorem stripped_map_semi {l : List Char} (h : Stripped l) :
    Stripped (l.map (fun c => if isSemiColonParen c then ',' else c)) := by
  constructor
  · intro a ha
    rw [List.head?_map] at ha
    cases hh : l.head? with
    | none => rw [hh] at ha; simp at ha
    | some x =>
      rw [hh] at ha
      simp at ha
      rw [← ha, isPySpace_semiRepl]
      exact h.1 x hh
  · intro a ha
    rw [List.getLast?_map] at ha
    cases hh : l.getLast? with
    | none => rw [hh] at ha; simp at ha
    | some x =>
      rw [hh] at ha
      simp at ha
      rw [← ha, isPySpace_semiRepl]
      exact h.2 x hh

theorem stripped_squeeze {c : Char} {l : List Char} (h : Stripped l) :
    Stripped (squeeze c l) := by
  constructor
  · intro a ha
    rw [squeeze_head?] at ha
    exact h.1 a ha
  · intro a ha
    rw [squeeze_getLast?] at ha
    exact h.2 a ha

theorem stripped_append_dot {l : List Char} (h : Stripped l) : Stripped (l ++ ['.']) := by
  constructor
  · intro a ha
    cases l with
    | nil =>
      simp at ha
      rw [← ha]
      decide
    | cons x xs =>
      rw [List.cons_append] at ha
      simp at ha
      rw [← ha]
      exact h.1 x (by simp)
  · intro a ha
    rw [List.getLast?_concat] at ha
    simp at ha
    rw [← ha]
    decide

theorem noSemi_map_semi (l : List Char) :
    NoSemi (l.map (fun c => if isSemiColonParen c then ',' else c)) := by
  intro c hc
  rcases List.mem_map.1 hc with ⟨a, _, rfl⟩
  by_cases h : isSemiColonParen a = true
  · simp only [if_pos h]
    decide
  · simp only [if_neg h]
    simpa using h

theorem noSemi_of_sublist {l₁ l₂ : List Char} (h : l₁.Sublist l₂) (hv : NoSemi l₂) :
    NoSemi l₁ := fun c hc => hv c (h.subset hc)

theorem map_eq_self_of (l : List Char) (f : Char → Char) (h : ∀ c ∈ l, f c = c) :
    l.map f = l := by
  induction l with
  | nil => rfl
  | cons a t ih =>
    rw [List.map_cons, h a (by simp), ih (fun c hc => h c (by simp [hc]))]

/-- `clean_core` is the identity on any string that is already in the fixed
shape its pipeline produces. -/
theorem clean_core_eq_self (l : List Char)
    (hv : AllValid l) (hs : NoSemi l) (hst : Stripped l)
    (hd : NoAdj '.' l) (hc : NoAdj ',' l) (hsp : NoAdj ' ' l)
    (he : endsWithTermPunct l = true) :
    clean_core l = l := by
  simp only [clean_core]
  rw [map_eq_self_of l (fun c => if isValidChar c then c else ' ')
    (fun c hcm => by simp [hv c hcm])]
  rw [pyStrip_eq_self_of_stripped hst]
  rw [map_eq_self_of l (fun c => if isSemiColonParen c then ',' else c)
    (fun c hcm => by simp [hs c hcm])]
  rw [squeeze_eq_of_noAdj _ _ hd, squeeze_eq_of_noAdj _ _ hc, squeeze_eq_of_noAdj _ _ hsp]
  rw [if_pos he]

/-- `clean_text` is the identity on any string that is already in the fixed
shape its pipeline produces. -/
theorem clean_text_eq_self (l : List Char)
    (hcn : l.contains '\n' = false)
    (hv : AllValid l) (hs : NoSemi l) (hst : Stripped l)
    (hd : NoAdj '.' l) (hc : NoAdj ',' l) (hsp : NoAdj ' ' l)
    (he : endsWithTermPunct l = true) :
    clean_text l = l := by
  rw [clean_text, hcn]
  simp only [Bool.false_eq_true, if_false]
  exact clean_core_eq_self l hv hs hst hd hc hsp he

/-- The output of `clean_core` satisfies every component of the fixed shape. -/
theorem clean_core_props (s1 : List Char) :
    AllValid (clean_core s1) ∧ NoSemi (clean_core s1) ∧ Stripped (clean_core s1) ∧
      NoAdj '.' (clean_core s1) ∧ NoAdj ',' (clean_core s1) ∧ NoAdj ' ' (clean_core s1) := by
  have hvalid := (clean_core_valid_chars_and_terminal s1).1
  have hs4 : NoSemi ((pyStrip (s1.map (fun c => if isValidChar c then c else ' '))).map
      (fun c => if isSemiColonParen c then ',' else c)) := noSemi_map_semi _
  have hst4 : Stripped ((pyStrip (s1.map (fun c => if isValidChar c then c else ' '))).map
      (fun c => if isSemiColonParen c then ',' else c)) :=
    stripped_map_semi (stripped_pyStrip _)
  have hsub7 : (squeeze ' ' (squeeze ',' (squeeze '.'
      ((pyStrip (s1.map (fun c => if isValidChar c then c else ' '))).map
        (fun c => if isSemiColonParen c then ',' else c))))).Sublist
      ((pyStrip (s1.map (fun c => if isValidChar c then c else ' '))).map
        (fun c => if isSemiColonParen c then ',' else c)) :=
    ((squeeze_sublist _ _).trans (squeeze_sublist _ _)).trans (squeeze_sublist _ _)
  have hs7 := noSemi_of_sublist hsub7 hs4
  have hst7 : Stripped (squeeze ' ' (squeeze ',' (squeeze '.'
      ((pyStrip (s1.map (fun c => if isValidChar c then c else ' '))).map
        (fun c => if isSemiColonParen c then ',' else c))))) :=
    stripped_squeeze (stripped_squeeze (stripped_squeeze hst4))
  have hd7 : NoAdj '.' (squeeze ' ' (squeeze ',' (squeeze '.'
      ((pyStrip (s1.map (fun c => if isValidChar c then c else ' '))).map
        (fun c => if isSemiColonParen c then ',' else c))))) :=
    noAdj_squeeze_other _ _ _ (noAdj_squeeze_other _ _ _ (noAdj_squeeze _ _))
  have hc7 : NoAdj ',' (squeeze ' ' (squeeze ',' (squeeze '.'
      ((pyStrip (s1.map (fun c => if isValidChar c then c else ' '))).map
        (fun c => if isSemiColonParen c then ',' else c))))) :=
    noAdj_squeeze_other _ _ _ (noAdj_squeeze _ _)
  have hsp7 : NoAdj ' ' (squeeze ' ' (squeeze ',' (squeeze '.'
      ((pyStrip (s1.map (fun c => if isValidChar c then c else ' '))).map
        (fun c => if isSemiColonParen c then ',' else c))))) :=
    noAdj_squeeze _ _
  refine ⟨hvalid, ?_⟩
  simp only [clean_core]
  split
  · exact ⟨hs7, hst7, hd7, hc7, hsp7⟩
  · rename_i hend
    have hlast : ∀ a, (squeeze ' ' (squeeze ',' (squeeze '.'
        ((pyStrip (s1.map (fun c => if isValidChar c then c else ' '))).map
          (fun c => if isSemiColonParen c then ',' else c))))).getLast? = some a →
        isTermPunct a = false := by
      intro a ha
      by_contra hterm
      apply hend
      simp [endsWithTermPunct, ha]
      simpa using hterm
    refine ⟨?_, stripped_append_dot hst7, ?_, ?_, ?_⟩
    · intro c hcm
      rcases List.mem_append.1 hcm with h | h
      · exact hs7 c h
      · simp at h
        rw [h]
        decide
    · refine noAdj_append_single _ _ _ hd7 ?_
      intro a ha hcontra
      have := hlast a ha
      rw [hcontra.1] at this
      simp [isTermPunct] at this
    · refine noAdj_append_single _ _ _ hc7 ?_
      intro a ha hcontra
      exact absurd hcontra.2 (by decide)
    · refine noAdj_append_single _ _ _ hsp7 ?_
      intro a ha hcontra
      exact absurd hcontra.2 (by decide)

theorem contains_nl_false_of_allValid {l : List Char} (hv : AllValid l) :
    l.contains '\n' = false := by
  cases h : l.contains '\n' with
  | false => rfl
  | true =>
    have hm : '\n' ∈ l := by simpa using h
    have := hv _ hm
    exact absurd this (by decide)

/-- Witness for `clean_text_valid_chars_and_terminal`. -/
theorem clean_text_valid_chars_and_terminal_witness :
    isValidChar '.' = true ∧ endsWithTermPunct (clean_text []) = true :=
  ⟨(clean_text_valid_chars_and_terminal []).1 '.' (by decide),
    (clean_text_valid_chars_and_terminal []).2⟩

/-- C4: cleaning is idempotent — `clean_text (clean_text x) = clean_text x`. -/
theorem clean_text_idempotent (s : List Char) :
    clean_text (clean_text s) = clean_text s := by
  have hout : clean_text s = clean_core (if s.contains '\n' then joinLines s else s) := rfl
  obtain ⟨hv, hs, hst, hd, hc, hsp⟩ := clean_core_props (if s.contains '\n' then joinLines s else s)
  rw [hout]
  exact clean_text_eq_self _ (contains_nl_false_of_allValid hv) hv hs hst hd hc hsp
    (clean_core_valid_chars_and_terminal _).2

/-! Lemmas for the newline branch of `clean_text` (claim C5). -/

theorem splitOnNl_ne_nil : ∀ l : List Char, splitOnNl l ≠ []
  | [] => by simp [splitOnNl]
  | c :: rest => by
    by_cases h : c = '\n'
    · simp [splitOnNl, h]
    · simp only [splitOnNl, if_neg h]
      cases hs : splitOnNl rest with
      | nil => simp
      | cons x xs => simp

theorem splitOnNl_no_nl : ∀ l : List Char, '\n' ∉ l → splitOnNl l = [l]
  | [], _ => rfl
  | c :: rest, h => by
    have hc : ¬ c = '\n' := fun hc => h (by simp [hc])
    have hr : splitOnNl rest = [rest] := splitOnNl_no_nl rest (fun hm => h (by simp [hm]))
    simp only [splitOnNl, if_neg hc, hr]

theorem splitOnNl_append_nl : ∀ a : List Char, ∀ b : List Char, '\n' ∉ a →
    splitOnNl (a ++ '\n' :: b) = a :: splitOnNl b
  | [], b, _ => by simp [splitOnNl]
  | c :: a, b, h => by
    have hc : ¬ c = '\n' := fun hc => h (by simp [hc])
    have hr := splitOnNl_append_nl a b (fun hm => h (by simp [hm]))
    simp only [List.cons_append, splitOnNl, if_neg hc]
    rw [List.append_eq, hr]

theorem mem_of_getLast?_vv : ∀ {l : List Char} {a : Char}, l.getLast? = some a → a ∈ l
  | [], a, h => by simp at h
  | [b], a, h => by
    simp at h
    simp [h]
  | b :: c :: rest, a, h => by
    rw [List.getLast?_cons_cons] at h
    exact List.mem_cons_of_mem b (mem_of_getLast?_vv h)

theorem stripped_of_all_nonspace {l : List Char} (h : ∀ c ∈ l, isPySpace c = false) :
    Stripped l := by
  constructor
  · intro a ha
    exact h a (List.mem_of_mem_head? ha)
  · intro a ha
    exact h a (mem_of_getLast?_vv ha)

theorem stripped_append_one {m : List Char} {x : Char}
    (hm : ∀ c ∈ m, isPySpace c = false) (hx : isPySpace x = false) :
    Stripped (m ++ [x]) := by
  constructor
  · intro a ha
    cases m with
    | nil =>
      simp at ha
      rw [← ha]
      exact hx
    | cons b m2 =>
      simp at ha
      rw [← ha]
      exact hm b (by simp)
  · intro a ha
    rw [List.getLast?_concat] at ha
    simp at ha
    rw [← ha]
    exact hx

theorem noAdj_cons_of_ne {c x : Char} {L : List Char} (hx : x ≠ c) (h : NoAdj c L) :
    NoAdj c (x :: L) := by
  cases L with
  | nil => trivial
  | cons y ys => exact ⟨fun hc => hx hc.1, h⟩

theorem noAdj_append_left {c : Char} : ∀ (a : List Char) {b : List Char},
    (∀ x ∈ a, x ≠ c) → NoAdj c b → NoAdj c (a ++ b)
  | [], _, _, hb => hb
  | x :: a, b, ha, hb => by
    rw [List.cons_append]
    exact noAdj_cons_of_ne (ha x (by simp))
      (noAdj_append_left a (fun y hy => ha y (by simp [hy])) hb)

theorem noAdj_of_forall_ne {c : Char} {l : List Char} (h : ∀ x ∈ l, x ≠ c) : NoAdj c l := by
  have h0 : NoAdj c (l ++ []) := noAdj_append_left l h trivial
  simpa using h0

theorem intercalate_pair (x y : List Char) : List.intercalate [' '] [x, y] = x ++ ' ' :: y := by
  simp [List.intercalate]

theorem alphabet_nonspace : ∀ c ∈ alphabetChars, isPySpace c = false := by decide

theorem alphabet_nosemi : ∀ c ∈ alphabetChars, isSemiColonParen c = false := by decide

theorem alphabet_valid : ∀ c ∈ alphabetChars, isValidChar c = true := by decide

theorem alphabet_ne : ∀ c ∈ alphabetChars,
    c ≠ '\n' ∧ c ≠ '.' ∧ c ≠ ' ' ∧ c ≠ ',' ∧ isTermPunct c = false := by decide

theorem stripped_shape {m R : List Char} {x y : Char}
    (hm : ∀ c ∈ m, isPySpace c = false) (hx : isPySpace x = false) (hy : isPySpace y = false) :
    Stripped (m ++ x :: (R ++ [y])) := by
  constructor
  · intro a ha
    cases m with
    | nil =>
      simp at ha
      rw [← ha]
      exact hx
    | cons b m2 =>
      simp at ha
      rw [← ha]
      exact hm b (by simp)
  · intro a ha
    have e : m ++ x :: (R ++ [y]) = (m ++ x :: R) ++ [y] := by simp
    rw [e, List.getLast?_concat] at ha
    simp at ha
    rw [← ha]
    exact hy

theorem endsWith_concat_dot (l : List Char) : endsWithTermPunct (l ++ ['.']) = true := by
  simp [endsWithTermPunct, List.getLast?_concat]
  decide

theorem noAdj_space_tail {l2 : List Char} (h2 : ∀ c ∈ l2, c ∈ alphabetChars) (hl2 : l2 ≠ []) :
    NoAdj ' ' (' ' :: (l2 ++ ['.'])) := by
  cases l2 with
  | nil => exact absurd rfl hl2
  | cons b t =>
    refine ⟨?_, ?_⟩
    · intro hc
      exact (alphabet_ne b (h2 b (by simp))).2.2.1 hc.2
    · exact noAdj_append_left (b :: t)
        (fun x hx => (alphabet_ne x (h2 x hx)).2.2.1) trivial

/-- C5 (amended): in the newline branch of `clean_text`, a period is appended
to every stripped line that does not already end with a literal `.` — in
particular a line ending in `?`, `!` or `,` also acquires a period — while a
line already ending in `.` is joined unchanged. -/
theorem clean_text_newline_period_rule (p : Char) (hp : p = '?' ∨ p = '!' ∨ p = ',')
    (m l2 : List Char) (hm : ∀ c ∈ m, c ∈ alphabetChars) (h2 : ∀ c ∈ l2, c ∈ alphabetChars)
    (hl2 : l2 ≠ []) :
    clean_text (m ++ p :: '\n' :: l2) = m ++ p :: '.' :: ' ' :: (l2 ++ ['.']) ∧
      clean_text (m ++ '.' :: '\n' :: l2) = m ++ '.' :: ' ' :: (l2 ++ ['.']) := by
  have hpn : isPySpace p = false ∧ isSemiColonParen p = false ∧ isValidChar p = true ∧
      p ≠ '\n' ∧ p ≠ '.' ∧ p ≠ ' ' := by
    rcases hp with rfl | rfl | rfl <;> exact ⟨rfl, rfl, by decide, by decide, by decide, by decide⟩
  have hstr2 : Stripped l2 :=
    stripped_of_all_nonspace (fun c hc => alphabet_nonspace c (h2 c hc))
  have hfix2 : fixLine l2 = l2 ++ ['.'] := by
    rw [fixLine, if_neg]
    intro hcc
    have hdot : '.' ∈ l2 := mem_of_getLast?_vv hcc
    exact (alphabet_ne '.' (h2 '.' hdot)).2.1 rfl
  have hl2nl : '\n' ∉ l2 := fun hmem => (alphabet_ne '\n' (h2 '\n' hmem)).1 rfl
  have hsplit2 : splitOnNl l2 = [l2] := splitOnNl_no_nl l2 hl2nl
  constructor
  · -- line ending in p ∈ ".?!," acquires an extra period
    have hcont : (m ++ p :: '\n' :: l2).contains '\n' = true := by simp
    rw [clean_text, hcont, if_pos rfl, joinLines]
    have hnl1 : '\n' ∉ m ++ [p] := by
      intro hmem
      rcases List.mem_append.1 hmem with hma | hmp
      · exact (alphabet_ne '\n' (hm '\n' hma)).1 rfl
      · simp at hmp
        exact hpn.2.2.2.1 hmp.symm
    have hsplit : splitOnNl (m ++ p :: '\n' :: l2) = (m ++ [p]) :: [l2] := by
      have e : m ++ p :: '\n' :: l2 = (m ++ [p]) ++ '\n' :: l2 := by simp
      rw [e, splitOnNl_append_nl _ _ hnl1, hsplit2]
    rw [hsplit]
    simp only [List.map_cons, List.map_nil]
    rw [pyStrip_eq_self_of_stripped
      (stripped_append_one (fun c hc => alphabet_nonspace c (hm c hc)) hpn.1)]
    rw [pyStrip_eq_self_of_stripped hstr2]
    have hne1 : m ++ [p] ≠ [] := by simp
    rw [List.filter_cons_of_pos (by simp),
      List.filter_cons_of_pos (by simpa using hl2), List.filter_nil]
    have hfix1 : fixLine (m ++ [p]) = (m ++ [p]) ++ ['.'] := by
      rw [fixLine, List.getLast?_concat, if_neg]
      intro hcc
      simp at hcc
      exact hpn.2.2.2.2.1 hcc
    simp only [List.map_cons, List.map_nil]
    rw [hfix1, hfix2, intercalate_pair]
    have eT : ((m ++ [p]) ++ ['.']) ++ ' ' :: (l2 ++ ['.']) =
        m ++ p :: '.' :: ' ' :: (l2 ++ ['.']) := by simp
    rw [eT]
    have hmemT : ∀ c ∈ m ++ p :: '.' :: ' ' :: (l2 ++ ['.']),
        c ∈ m ∨ c ∈ l2 ∨ c = p ∨ c = '.' ∨ c = ' ' := by
      intro c hc
      simp at hc
      tauto
    apply clean_core_eq_self
    · intro c hc
      rcases hmemT c hc with h | h | rfl | rfl | rfl
      · exact alphabet_valid c (hm c h)
      · exact alphabet_valid c (h2 c h)
      · exact hpn.2.2.1
      · decide
      · decide
    · intro c hc
      rcases hmemT c hc with h | h | rfl | rfl | rfl
      · exact alphabet_nosemi c (hm c h)
      · exact alphabet_nosemi c (h2 c h)
      · exact hpn.2.1
      · decide
      · decide
    · have e2 : m ++ p :: '.' :: ' ' :: (l2 ++ ['.']) =
          m ++ p :: (('.' :: ' ' :: l2) ++ ['.']) := by simp
      rw [e2]
      exact stripped_shape (fun c hc => alphabet_nonspace c (hm c hc)) hpn.1 (by decide)
    · apply noAdj_append_left m (fun x hx => (alphabet_ne x (hm x hx)).2.1)
      refine ⟨fun hc => hpn.2.2.2.2.1 hc.1, ?_⟩
      refine ⟨fun hc => absurd hc.2 (by decide), ?_⟩
      exact noAdj_append_left (' ' :: l2)
        (fun x hx => by
          rcases List.mem_cons.1 hx with rfl | hx2
          · decide
          · exact (alphabet_ne x (h2 x hx2)).2.1) trivial
    · apply noAdj_append_left m (fun x hx => (alphabet_ne x (hm x hx)).2.2.2.1)
      refine ⟨fun hc => absurd hc.2 (by decide), ?_⟩
      refine ⟨fun hc => absurd hc.2 (by decide), ?_⟩
      exact noAdj_append_left (' ' :: l2)
        (fun x hx => by
          rcases List.mem_cons.1 hx with rfl | hx2
          · decide
          · exact (alphabet_ne x (h2 x hx2)).2.2.2.1)
        (by
          show NoAdj ',' ['.']
          trivial)
    · apply noAdj_append_left m (fun x hx => (alphabet_ne x (hm x hx)).2.2.1)
      refine ⟨fun hc => hpn.2.2.2.2.2 hc.1, ?_⟩
      refine ⟨fun hc => absurd hc.1 (by decide), ?_⟩
      exact noAdj_space_tail h2 hl2
    · have e2 : m ++ p :: '.' :: ' ' :: (l2 ++ ['.']) =
          (m ++ p :: '.' :: ' ' :: l2) ++ ['.'] := by simp
      rw [e2]
      exact endsWith_concat_dot _
  · -- line already ending in a period is joined unchanged
    have hcont : (m ++ '.' :: '\n' :: l2).contains '\n' = true := by simp
    rw [clean_text, hcont, if_pos rfl, joinLines]
    have hnl1 : '\n' ∉ m ++ ['.'] := by
      intro hmem
      rcases List.mem_append.1 hmem with hma | hmp
      · exact (alphabet_ne '\n' (hm '\n' hma)).1 rfl
      · simp at hmp
    have hsplit : splitOnNl (m ++ '.' :: '\n' :: l2) = (m ++ ['.']) :: [l2] := by
      have e : m ++ '.' :: '\n' :: l2 = (m ++ ['.']) ++ '\n' :: l2 := by simp
      rw [e, splitOnNl_append_nl _ _ hnl1, hsplit2]
    rw [hsplit]
    simp only [List.map_cons, List.map_nil]
    rw [pyStrip_eq_self_of_stripped
      (stripped_append_one (fun c hc => alphabet_nonspace c (hm c hc)) (by decide))]
    rw [pyStrip_eq_self_of_stripped hstr2]
    have hne1 : m ++ ['.'] ≠ [] := by simp
    rw [List.filter_cons_of_pos (by simp),
      List.filter_cons_of_pos (by simpa using hl2), List.filter_nil]
    have hfix1 : fixLine (m ++ ['.']) = m ++ ['.'] := by
      rw [fixLine, List.getLast?_concat, if_pos rfl]
    simp only [List.map_cons, List.map_nil]
    rw [hfix1, hfix2, intercalate_pair]
    have eT : (m ++ ['.']) ++ ' ' :: (l2 ++ ['.']) =
        m ++ '.' :: ' ' :: (l2 ++ ['.']) := by simp
    rw [eT]
    have hmemT : ∀ c ∈ m ++ '.' :: ' ' :: (l2 ++ ['.']),
        c ∈ m ∨ c ∈ l2 ∨ c = '.' ∨ c = ' ' := by
      intro c hc
      simp at hc
      tauto
    apply clean_core_eq_self
    · intro c hc
      rcases hmemT c hc with h | h | rfl | rfl
      · exact alphabet_valid c (hm c h)
      · exact alphabet_valid c (h2 c h)
      · decide
      · decide
    · intro c hc
      rcases hmemT c hc with h | h | rfl | rfl
      · exact alphabet_nosemi c (hm c h)
      · exact alphabet_nosemi c (h2 c h)
      · decide
      · decide
    · have e2 : m ++ '.' :: ' ' :: (l2 ++ ['.']) =
          m ++ '.' :: ((' ' :: l2) ++ ['.']) := by simp
      rw [e2]
      exact stripped_shape (fun c hc => alphabet_nonspace c (hm c hc)) (by decide) (by decide)
    · apply noAdj_append_left m (fun x hx => (alphabet_ne x (hm x hx)).2.1)
      refine ⟨fun hc => absurd hc.2 (by decide), ?_⟩
      exact noAdj_append_left (' ' :: l2)
        (fun x hx => by
          rcases List.mem_cons.1 hx with rfl | hx2
          · decide
          · exact (alphabet_ne x (h2 x hx2)).2.1) trivial
    · apply noAdj_append_left m (fun x hx => (alphabet_ne x (hm x hx)).2.2.2.1)
      refine ⟨fun hc => absurd hc.1 (by decide), ?_⟩
      exact noAdj_append_left (' ' :: l2)
        (fun x hx => by
          rcases List.mem_cons.1 hx with rfl | hx2
          · decide
          · exact (alphabet_ne x (h2 x hx2)).2.2.2.1)
        (by
          show NoAdj ',' ['.']
          trivial)
    · apply noAdj_append_left m (fun x hx => (alphabet_ne x (hm x hx)).2.2.1)
      refine ⟨fun hc => absurd hc.1 (by decide), ?_⟩
      exact noAdj_space_tail h2 hl2
    · have e2 : m ++ '.' :: ' ' :: (l2 ++ ['.']) =
          (m ++ '.' :: ' ' :: l2) ++ ['.'] := by simp
      rw [e2]
      exact endsWith_concat_dot _

/-- C5 counterexample: the code appends a period after a line that already
ends in `?`, so `clean_text "a?\nb"` is `"a?. b."`, not `"a? b."` as the
claim predicts. -/
theorem clean_text_newline_question_cex :
    clean_text "a?\nb".toList = "a?. b.".toList ∧
      clean_text "a?\nb".toList ≠ "a? b.".toList := by decide

/-- Witness for `clean_text_newline_period_rule`. -/
theorem clean_text_newline_period_rule_witness :
    clean_text ('a' :: '?' :: '\n' :: ['b']) = ('a' :: '?' :: '.' :: ' ' :: 'b' :: ['.']) ∧
      clean_text ('a' :: '.' :: '\n' :: ['b']) = ('a' :: '.' :: ' ' :: 'b' :: ['.']) := by
  have h := clean_text_newline_period_rule '?' (Or.inl rfl) ['a'] ['b']
    (by decide) (by decide) (by decide)
  exact ⟨h.1, h.2⟩

example : chunk_text "Hello world".toList 50 = ["Hello world".toList] := by decide
example : chunk_text "abcdefghijklmnopqrstuvwxyzabcdefghi".toList 20 =
    ["abcdefghijklmnopqrstuvwxyzabcdefghi".toList] := by decide
example : chunk_text "".toList 135 = [] := by decide
example : chunk_text "   ".toList 10 = [] := by decide
example : chunk_text "aaa, bbb".toList 5 = ["aaa".toList, "bbb".toList] := by decide
example : chunk_text "Aa. Bb. Cc.".toList 7 = ["Aa. Bb.".toList, "Cc.".toList] := by decide

/-! Lemmas about `pySplitWs` (Python `str.split()`). -/

theorem wsGo_all_nonspace : ∀ (l cur : List Char), (∀ c ∈ l, isPySpace c = false) →
    (cur = [] → l ≠ []) → wsGo l cur = [cur.reverse ++ l]
  | [], cur, _, hne => by
    have hcur : cur ≠ [] := by
      intro h
      exact (hne h) rfl
    simp [wsGo, hcur]
  | c :: rest, cur, h, _ => by
    have hc : isPySpace c = false := h c (by simp)
    have ih := wsGo_all_nonspace rest (c :: cur) (fun d hd => h d (by simp [hd]))
      (by simp)
    simp only [wsGo, hc, Bool.false_eq_true, if_false, ih]
    simp

theorem pySplitWs_single {l : List Char} (hne : l ≠ []) (h : ∀ c ∈ l, isPySpace c = false) :
    pySplitWs l = [l] := by
  have hh := wsGo_all_nonspace l [] h (fun _ => hne)
  simpa [pySplitWs] using hh

theorem wsGo_mem : ∀ (l cur w : List Char), (∀ c ∈ cur, isPySpace c = false) →
    w ∈ wsGo l cur → w ≠ [] ∧ ∀ c ∈ w, isPySpace c = false
  | [], cur, w, hcur, hw => by
    simp only [wsGo] at hw
    split at hw
    · simp at hw
    · rename_i hcurne
      simp at hw
      subst hw
      refine ⟨by simpa using hcurne, ?_⟩
      intro c hc
      exact hcur c (by simpa using hc)
  | c :: rest, cur, w, hcur, hw => by
    simp only [wsGo] at hw
    split at hw
    · -- c is whitespace
      split at hw
      · exact wsGo_mem rest [] w (by simp) hw
      · rename_i hcurne
        rcases List.mem_cons.1 hw with rfl | hw2
        · refine ⟨by simpa using hcurne, ?_⟩
          intro d hd
          exact hcur d (by simpa using hd)
        · exact wsGo_mem rest [] w (by simp) hw2
    · rename_i hc
      exact wsGo_mem rest (c :: cur) w
        (by
          intro d hd
          rcases List.mem_cons.1 hd with rfl | hd2
          · simpa using hc
          · exact hcur d hd2) hw

theorem pySplitWs_mem {l w : List Char} (hw : w ∈ pySplitWs l) :
    w ≠ [] ∧ ∀ c ∈ w, isPySpace c = false :=
  wsGo_mem l [] w (by simp) hw

theorem pyStrip_idem (l : List Char) : pyStrip (pyStrip l) = pyStrip l :=
  pyStrip_eq_self_of_stripped (stripped_pyStrip l)

theorem stripped_of_eq_pyStrip {l : List Char} (h : pyStrip l = l) : Stripped l := by
  rw [← h]
  exact stripped_pyStrip l

theorem pyStrip_flush_SentOK {mc : Nat} {cur : List Char} (hinv : WInv mc cur)
    (hne : pyStrip cur ≠ []) : SentOK mc (pyStrip cur) := by
  refine ⟨hne, pyStrip_idem cur, ?_⟩
  rcases hinv with rfl | h | h
  · simp [pyStrip, dropTrailingWs] at hne
  · exact Or.inl (le_trans (pyStrip_sublist cur).length_le h)
  · exact Or.inr (fun c hc => h c ((pyStrip_sublist cur).subset hc))

theorem packWords_SentOK (mc : Nat) : ∀ (ws : List (List Char)) (cur : List Char),
    (∀ w ∈ ws, w ≠ [] ∧ ∀ c ∈ w, isPySpace c = false) → WInv mc cur →
    ∀ s ∈ packWords mc ws cur, SentOK mc s
  | [], cur, _, hinv, s, hs => by
    simp only [packWords] at hs
    split at hs
    · rename_i hne
      simp at hs
      subst hs
      exact pyStrip_flush_SentOK hinv hne
    · simp at hs
  | w :: ws, cur, hws, hinv, s, hs => by
    have hw := hws w (by simp)
    have hws2 : ∀ v ∈ ws, v ≠ [] ∧ ∀ c ∈ v, isPySpace c = false :=
      fun v hv => hws v (by simp [hv])
    simp only [packWords] at hs
    split at hs
    · rcases List.mem_append.1 hs with h1 | h2
      · split at h1
        · rename_i hne
          simp at h1
          subst h1
          exact pyStrip_flush_SentOK hinv hne
        · simp at h1
      · exact packWords_SentOK mc ws w hws2 (Or.inr (Or.inr hw.2)) s h2
    · rename_i hcond
      by_cases hcur : cur = []
      · rw [if_pos hcur] at hs
        exact packWords_SentOK mc ws w hws2 (Or.inr (Or.inr hw.2)) s hs
      · rw [if_neg hcur] at hs
        have hlen : cur.length + 1 + w.length ≤ mc := by
          rcases le_or_lt (cur.length + 1 + w.length) mc with h | h
          · exact h
          · exact absurd ⟨hcur, h⟩ hcond
        refine packWords_SentOK mc ws (cur ++ ' ' :: w) hws2 (Or.inr (Or.inl ?_)) s hs
        simp
        omega

theorem sentencePieces_SentOK (mc : Nat) (s0 : List Char) :
    ∀ s ∈ sentencePieces mc s0, SentOK mc s := by
  intro s hs
  simp only [sentencePieces] at hs
  split at hs
  · simp at hs
  · rename_i hne
    split at hs
    · rename_i hlen
      simp at hs
      subst hs
      exact ⟨hne, pyStrip_idem s0, Or.inl hlen⟩
    · rcases List.mem_flatMap.1 hs with ⟨raw, _, hraw2⟩
      simp only [partPieces] at hraw2
      split at hraw2
      · simp at hraw2
      · rename_i hpne
        split at hraw2
        · rename_i hplen
          simp at hraw2
          subst hraw2
          exact ⟨hpne, pyStrip_idem raw, Or.inl hplen⟩
        · exact packWords_SentOK mc (pySplitWs (pyStrip raw)) []
            (fun w hw => pySplitWs_mem hw) (Or.inl rfl) s hraw2

theorem buildSentences_SentOK (mc : Nat) (text : List Char) :
    ∀ s ∈ buildSentences mc text, SentOK mc s := by
  intro s hs
  rcases List.mem_flatMap.1 hs with ⟨s0, _, h2⟩
  exact sentencePieces_SentOK mc s0 s h2

theorem stripped_join {a b : List Char} (ha : Stripped a) (hna : a ≠ [])
    (hb : Stripped b) (hnb : b ≠ []) : Stripped (a ++ ' ' :: b) := by
  constructor
  · intro x hx
    cases a with
    | nil => exact absurd rfl hna
    | cons y ys =>
      simp at hx
      rw [← hx]
      exact ha.1 y (by simp)
  · intro x hx
    rw [List.getLast?_append_cons] at hx
    cases b with
    | nil => exact absurd rfl hnb
    | cons z zs =>
      rw [show (' ' :: z :: zs).getLast? = (z :: zs).getLast? from List.getLast?_cons_cons] at hx
      exact hb.2 x hx

theorem CInv_join {mc : Nat} {cur s : List Char} (hcur : cur ≠ []) (hstr : pyStrip cur = cur)
    (hs : SentOK mc s) (hlen : cur.length + 1 + s.length ≤ mc) :
    CInv mc (cur ++ ' ' :: s) := by
  refine Or.inr ⟨by simp, ?_, Or.inl (by simp; omega)⟩
  exact pyStrip_eq_self_of_stripped
    (stripped_join (stripped_of_eq_pyStrip hstr) hcur
      (stripped_of_eq_pyStrip hs.2.1) hs.1)

theorem packSentences_ChunkOK (mc : Nat) : ∀ (ss : List (List Char)) (cur : List Char),
    (∀ s ∈ ss, SentOK mc s) → CInv mc cur →
    ∀ ch ∈ packSentences mc ss cur, ChunkOK mc ch
  | [], cur, _, hinv, ch, hch => by
    simp only [packSentences] at hch
    split at hch
    · rename_i hne
      simp at hch
      subst hch
      rcases hinv with rfl | ⟨h1, h2, h3⟩
      · exact absurd rfl hne
      · rw [h2]
        exact ⟨h1, h3⟩
    · simp at hch
  | s :: ss, cur, hss, hinv, ch, hch => by
    have hs := hss s (by simp)
    have hss2 : ∀ v ∈ ss, SentOK mc v := fun v hv => hss v (by simp [hv])
    have hsInv : CInv mc s := Or.inr ⟨hs.1, hs.2.1, hs.2.2⟩
    simp only [packSentences] at hch
    split at hch
    · rename_i hcond
      rcases List.mem_cons.1 hch with rfl | h2
      · rcases hinv with rfl | ⟨h1, hstr, h3⟩
        · exact absurd hcond.1 (by simp)
        · rw [hstr]
          exact ⟨h1, h3⟩
      · exact packSentences_ChunkOK mc ss s hss2 hsInv ch h2
    · rename_i hcond
      by_cases hcur : cur = []
      · rw [if_pos hcur] at hch
        exact packSentences_ChunkOK mc ss s hss2 hsInv ch hch
      · rw [if_neg hcur] at hch
        have hlen : cur.length + 1 + s.length ≤ mc := by
          rcases le_or_lt (cur.length + 1 + s.length) mc with h | h
          · exact h
          · exact absurd ⟨hcur, h⟩ hcond
        rcases hinv with rfl | ⟨h1, hstr, h3⟩
        · exact absurd rfl hcur
        · exact packSentences_ChunkOK mc ss (cur ++ ' ' :: s) hss2
            (CInv_join hcur hstr hs hlen) ch hch

theorem mergeShortGo_ChunkOK (mc : Nat) (many : Bool) :
    ∀ (rest final : List (List Char)),
    (∀ ch ∈ final, ChunkOK mc ch) → (∀ ch ∈ rest, ChunkOK mc ch) →
    ∀ ch ∈ mergeShortGo mc many final rest, ChunkOK mc ch
  | [], final, hf, _, ch, hch => by
    simp only [mergeShortGo] at hch
    exact hf ch hch
  | [current], final, hf, hr, ch, hch => by
    have hcur := hr current (by simp)
    simp only [mergeShortGo] at hch
    have happ : ∀ x ∈ final ++ [current], ChunkOK mc x := by
      intro x hx
      rcases List.mem_append.1 hx with h | h
      · exact hf x h
      · simp at h
        rw [h]
        exact hcur
    split at hch
    · split at hch
      · rename_i prev hprev
        split at hch
        · rename_i hlen
          rcases List.mem_append.1 hch with h | h
          · exact hf ch (List.dropLast_subset _ h)
          · simp at h
            rw [h]
            exact ⟨by simp, Or.inl hlen⟩
        · exact happ ch hch
      · exact happ ch hch
    · exact happ ch hch
  | current :: next :: rest2, final, hf, hr, ch, hch => by
    have hcur := hr current (by simp)
    have hnext := hr next (by simp)
    have hrest2 : ∀ v ∈ rest2, ChunkOK mc v := fun v hv => hr v (by simp [hv])
    simp only [mergeShortGo] at hch
    split at hch
    · rename_i hcond
      refine mergeShortGo_ChunkOK mc many rest2 (final ++ [current ++ ' ' :: next]) ?_ hrest2 ch hch
      intro x hx
      rcases List.mem_append.1 hx with h | h
      · exact hf x h
      · simp at h
        rw [h]
        exact ⟨by simp, Or.inl hcond.2.2⟩
    · refine mergeShortGo_ChunkOK mc many (next :: rest2) (final ++ [current]) ?_
        (fun v hv => hr v (by simp at hv ⊢; tauto)) ch hch
      intro x hx
      rcases List.mem_append.1 hx with h | h
      · exact hf x h
      · simp at h
        rw [h]
        exact hcur

/-- C1: every chunk returned by `chunk_text` either fits the `max_chars`
budget or is a single whitespace-free word. -/
theorem chunk_text_budget (text : List Char) (mc : Nat) :
    ∀ ch ∈ chunk_text text mc, ch.length ≤ mc ∨ (pySplitWs ch).length = 1 := by
  intro ch hch
  simp only [chunk_text] at hch
  split at hch
  · simp at hch
  · split at hch
    · simp at hch
    · have hok : ChunkOK mc ch := by
        refine mergeShortGo_ChunkOK mc _ _ [] (by simp) ?_ ch hch
        exact packSentences_ChunkOK mc _ [] (buildSentences_SentOK mc text) (Or.inl rfl)
      rcases hok.2 with h | h
      · exact Or.inl h
      · right
        rw [pySplitWs_single hok.1 h]
        rfl

/-- Witness for `chunk_text_budget` at the spec's concrete scenario. -/
theorem chunk_text_budget_witness :
    "Hello world".toList.length ≤ 50 ∨ (pySplitWs "Hello world".toList).length = 1 :=
  chunk_text_budget "Hello world".toList 50 "Hello world".toList (by decide)

/-! Word-decomposition lemmas (claim C2). -/

theorem isPySpace_space : isPySpace ' ' = true := rfl

theorem pySplitWs_cons_space (b : List Char) : pySplitWs (' ' :: b) = pySplitWs b := by
  simp [pySplitWs, wsGo, isPySpace_space]

theorem wsGo_append_space : ∀ (a cur b : List Char),
    wsGo (a ++ ' ' :: b) cur = wsGo a cur ++ wsGo b []
  | [], cur, b => by
    by_cases hcur : cur = []
    · subst hcur
      simp [wsGo, isPySpace_space]
    · simp [wsGo, isPySpace_space, hcur]
  | c :: a, cur, b => by
    by_cases hc : isPySpace c = true
    · by_cases hcur : cur = []
      · subst hcur
        simp only [List.cons_append, wsGo, hc, if_true, if_pos rfl]
        rw [List.append_eq]
        exact wsGo_append_space a [] b
      · simp only [List.cons_append, wsGo, hc, if_true, if_neg hcur]
        rw [List.append_eq, wsGo_append_space a [] b]
    · simp only [List.cons_append, wsGo, hc, Bool.false_eq_true, if_false]
      rw [List.append_eq]
      exact wsGo_append_space a (c :: cur) b

theorem pySplitWs_append_space (a b : List Char) :
    pySplitWs (a ++ ' ' :: b) = pySplitWs a ++ pySplitWs b := by
  simp [pySplitWs, wsGo_append_space]

theorem dropTrailingWs_eq_nil_iff : ∀ l : List Char,
    dropTrailingWs l = [] ↔ ∀ c ∈ l, isPySpace c = true
  | [] => by simp [dropTrailingWs]
  | a :: rest => by
    simp only [dropTrailingWs]
    constructor
    · intro h
      split at h
      · rename_i hcond
        intro c hc
        rcases List.mem_cons.1 hc with rfl | hc2
        · exact hcond.2
        · exact (dropTrailingWs_eq_nil_iff rest).1 hcond.1 c hc2
      · simp at h
    · intro h
      rw [if_pos ⟨(dropTrailingWs_eq_nil_iff rest).2 (fun c hc => h c (by simp [hc])),
        h a (by simp)⟩]

theorem wsGo_all_space : ∀ l : List Char, (∀ c ∈ l, isPySpace c = true) → wsGo l [] = []
  | [], _ => by simp [wsGo]
  | c :: rest, h => by
    simp only [wsGo, h c (by simp), if_true, if_pos rfl]
    exact wsGo_all_space rest (fun d hd => h d (by simp [hd]))

theorem wsGo_dropTrailing : ∀ (l cur : List Char), wsGo (dropTrailingWs l) cur = wsGo l cur
  | [], cur => by simp [dropTrailingWs]
  | a :: rest, cur => by
    simp only [dropTrailingWs]
    split
    · rename_i hcond
      have hspace : ∀ c ∈ a :: rest, isPySpace c = true := by
        intro c hc
        rcases List.mem_cons.1 hc with rfl | hc2
        · exact hcond.2
        · exact (dropTrailingWs_eq_nil_iff rest).1 hcond.1 c hc2
      rw [show wsGo (a :: rest) cur = if cur = [] then wsGo rest [] else cur.reverse :: wsGo rest []
        from by simp [wsGo, hcond.2]]
      have hrest : wsGo rest [] = [] :=
        wsGo_all_space rest (fun d hd => hspace d (by simp [hd]))
      by_cases hcur : cur = []
      · subst hcur
        simp [wsGo, hrest]
      · simp [wsGo, hcur, hrest]
    · rename_i hcond
      by_cases ha : isPySpace a = true
      · have hrne : dropTrailingWs rest ≠ [] := by
          intro hh
          exact hcond ⟨hh, ha⟩
        by_cases hcur : cur = []
        · subst hcur
          simp only [wsGo, ha, if_true, if_pos rfl]
          exact wsGo_dropTrailing rest []
        · simp only [wsGo, ha, if_true, if_neg hcur]
          rw [wsGo_dropTrailing rest []]
      · simp only [wsGo, ha, Bool.false_eq_true, if_false]
        exact wsGo_dropTrailing rest (a :: cur)

theorem wsGo_dropLeading : ∀ l : List Char, wsGo (l.dropWhile isPySpace) [] = wsGo l []
  | [] => by simp
  | c :: rest => by
    by_cases hc : isPySpace c = true
    · rw [List.dropWhile_cons_of_pos hc]
      rw [wsGo_dropLeading rest]
      simp [wsGo, hc]
    · rw [List.dropWhile_cons_of_neg (by simpa using hc)]

theorem words_pyStrip (l : List Char) : pySplitWs (pyStrip l) = pySplitWs l := by
  rw [pyStrip]
  show wsGo (dropTrailingWs (l.dropWhile isPySpace)) [] = wsGo l []
  rw [wsGo_dropTrailing, wsGo_dropLeading]

theorem words_nil_of_pyStrip_nil {l : List Char} (h : pyStrip l = []) : pySplitWs l = [] := by
  rw [← words_pyStrip, h]
  rfl

theorem sentGo_words : ∀ (l cur : List Char) (dropping : Bool), (dropping = true → cur = []) →
    (sentGo dropping cur l).flatMap pySplitWs = pySplitWs (cur.reverse ++ l)
  | [], cur, dropping, _ => by simp [sentGo]
  | c :: rest, cur, dropping, hd => by
    simp only [sentGo]
    split
    · rename_i hcond
      have hcur : cur = [] := hd hcond.1
      subst hcur
      rw [sentGo_words rest [] true (fun _ => rfl)]
      rw [hcond.2]
      simp [pySplitWs_cons_space]
    · split
      · rename_i hcond2
        obtain ⟨rest0, hrest⟩ : ∃ rest0, rest = ' ' :: rest0 := by
          cases rest with
          | nil => simp at hcond2
          | cons x xs =>
            have hx : x = ' ' := by simpa using hcond2.2
            exact ⟨xs, by rw [hx]⟩
        rw [List.flatMap_cons, sentGo_words rest [] true (fun _ => rfl)]
        rw [hrest, List.reverse_nil, List.nil_append, pySplitWs_cons_space]
        have e : cur.reverse ++ c :: ' ' :: rest0 = (cur.reverse ++ [c]) ++ ' ' :: rest0 := by
          simp
        rw [e, pySplitWs_append_space]
      · rw [sentGo_words rest (c :: cur) false (by simp)]
        simp

theorem packWords_words (mc : Nat) : ∀ (ws : List (List Char)) (cur : List Char),
    (∀ w ∈ ws, w ≠ [] ∧ ∀ c ∈ w, isPySpace c = false) →
    (packWords mc ws cur).flatMap pySplitWs = pySplitWs cur ++ ws
  | [], cur, _ => by
    simp only [packWords]
    split
    · simp [words_pyStrip]
    · rename_i h
      simp at h
      rw [← words_pyStrip cur, h]
      simp [pySplitWs, wsGo]
  | w :: ws, cur, hws => by
    have hw := hws w (by simp)
    have hws2 : ∀ v ∈ ws, v ≠ [] ∧ ∀ c ∈ v, isPySpace c = false :=
      fun v hv => hws v (by simp [hv])
    have hsingle : pySplitWs w = [w] := pySplitWs_single hw.1 hw.2
    simp only [packWords]
    split
    · rw [List.flatMap_append, packWords_words mc ws w hws2, hsingle]
      split
      · simp [words_pyStrip]
      · rename_i h
        simp at h
        rw [show ([] : List (List Char)).flatMap pySplitWs = [] from rfl]
        rw [← words_pyStrip cur, h]
        simp [pySplitWs, wsGo]
    · by_cases hcur : cur = []
      · rw [if_pos hcur, packWords_words mc ws w hws2, hcur, hsingle]
        simp [pySplitWs, wsGo]
      · rw [if_neg hcur, packWords_words mc ws (cur ++ ' ' :: w) hws2,
          pySplitWs_append_space, hsingle]
        simp

theorem flatMap_congr_mem {α β : Type} {l : List α} {f g : α → List β}
    (h : ∀ x ∈ l, f x = g x) : l.flatMap f = l.flatMap g := by
  induction l with
  | nil => rfl
  | cons a t ih =>
    rw [List.flatMap_cons, List.flatMap_cons, h a (by simp),
      ih (fun x hx => h x (by simp [hx]))]

theorem sentencePieces_words (mc : Nat) (s0 : List Char)
    (h : mc < (pyStrip s0).length → commaGo [] (pyStrip s0) = [pyStrip s0]) :
    (sentencePieces mc s0).flatMap pySplitWs = pySplitWs s0 := by
  simp only [sentencePieces]
  split
  · rename_i hnil
    rw [show ([] : List (List Char)).flatMap pySplitWs = [] from rfl]
    exact (words_nil_of_pyStrip_nil hnil).symm
  · rename_i hnil
    split
    · rename_i hlen
      simp only [List.flatMap_cons, List.flatMap_nil, List.append_nil]
      exact words_pyStrip s0
    · rename_i hlen
      rw [h (by omega), List.flatMap_cons, List.flatMap_nil, List.append_nil]
      simp only [partPieces, pyStrip_idem]
      rw [if_neg (by simpa using hnil), if_neg hlen]
      rw [packWords_words mc _ [] (fun w hw => pySplitWs_mem hw)]
      rw [show pySplitWs [] = [] from rfl, List.nil_append]
      exact words_pyStrip s0

theorem buildSentences_words (mc : Nat) (text : List Char)
    (h : ∀ p ∈ sentGo false [] (pyStrip text), mc < (pyStrip p).length →
      commaGo [] (pyStrip p) = [pyStrip p]) :
    (buildSentences mc text).flatMap pySplitWs = pySplitWs text := by
  rw [buildSentences, List.flatMap_assoc]
  rw [flatMap_congr_mem (fun p hp => sentencePieces_words mc p (h p hp))]
  rw [sentGo_words (pyStrip text) [] false (by simp)]
  simp [words_pyStrip]

theorem packSentences_words (mc : Nat) : ∀ (ss : List (List Char)) (cur : List Char),
    (packSentences mc ss cur).flatMap pySplitWs = pySplitWs cur ++ ss.flatMap pySplitWs
  | [], cur => by
    simp only [packSentences]
    split
    · simp [words_pyStrip]
    · rename_i h
      simp at h
      rw [h]
      simp [pySplitWs, wsGo]
  | s :: ss, cur => by
    simp only [packSentences]
    split
    · rw [List.flatMap_cons, packSentences_words mc ss s, words_pyStrip,
        List.flatMap_cons]
    · by_cases hcur : cur = []
      · rw [if_pos hcur, packSentences_words mc ss s, hcur]
        simp [pySplitWs, wsGo]
      · rw [if_neg hcur, packSentences_words mc ss (cur ++ ' ' :: s),
          pySplitWs_append_space, List.flatMap_cons]
        simp

theorem eq_dropLast_concat_of_getLast? :
    ∀ {l : List (List Char)} {a : List Char}, l.getLast? = some a → l = l.dropLast ++ [a]
  | [], a, h => by simp at h
  | [x], a, h => by
    simp at h
    simp [h]
  | x :: y :: r, a, h => by
    rw [List.getLast?_cons_cons] at h
    have ih := eq_dropLast_concat_of_getLast? h
    rw [show (x :: y :: r).dropLast = x :: (y :: r).dropLast from rfl, List.cons_append, ← ih]

theorem mergeShortGo_words (mc : Nat) (many : Bool) : ∀ (rest final : List (List Char)),
    (mergeShortGo mc many final rest).flatMap pySplitWs =
      final.flatMap pySplitWs ++ rest.flatMap pySplitWs
  | [], final => by simp [mergeShortGo]
  | [current], final => by
    simp only [mergeShortGo]
    split
    · split
      · rename_i prev hprev
        split
        · rw [List.flatMap_append, eq_dropLast_concat_of_getLast? hprev,
            List.flatMap_append]
          simp [pySplitWs_append_space]
        · simp
      · simp
    · simp
  | current :: next :: rest2, final => by
    simp only [mergeShortGo]
    split
    · rw [mergeShortGo_words mc many rest2 (final ++ [current ++ ' ' :: next]),
        List.flatMap_append]
      simp [pySplitWs_append_space]
    · rw [mergeShortGo_words mc many (next :: rest2) (final ++ [current]),
        List.flatMap_append]
      simp

/-- C2 (amended): whenever no over-budget sentence contains a `", "`
separator (so the comma-split drops nothing), the concatenation of the
whitespace-delimited words of the chunks equals the word sequence of the
input text — word order, and hence the word multiset, is preserved. -/
theorem chunk_text_word_preservation (text : List Char) (mc : Nat)
    (h : ∀ p ∈ sentGo false [] (pyStrip text), mc < (pyStrip p).length →
      commaGo [] (pyStrip p) = [pyStrip p]) :
    (chunk_text text mc).flatMap pySplitWs = pySplitWs text := by
  simp only [chunk_text]
  split
  · rename_i hnil
    rw [show ([] : List (List Char)).flatMap pySplitWs = [] from rfl]
    exact (words_nil_of_pyStrip_nil hnil).symm
  · split
    · rename_i hsent
      rw [show ([] : List (List Char)).flatMap pySplitWs = [] from rfl]
      have hb := buildSentences_words mc text h
      rw [hsent] at hb
      simpa using hb.symm
    · rw [mergeShortGo_words, packSentences_words]
      rw [show pySplitWs [] = [] from rfl]
      simpa using buildSentences_words mc text h

/-- C2 counterexample: a long sentence is split on `", "` and the comma is
dropped from the preceding word, so the word multiset is not preserved:
`chunk_text "aaa, bbb" 5 = ["aaa", "bbb"]` but the input words are
`["aaa,", "bbb"]`. -/
theorem chunk_text_word_loss_cex :
    chunk_text "aaa, bbb".toList 5 = ["aaa".toList, "bbb".toList] ∧
      pySplitWs "aaa, bbb".toList = ["aaa,".toList, "bbb".toList] ∧
      ¬ ((chunk_text "aaa, bbb".toList 5).flatMap pySplitWs).Perm
          (pySplitWs "aaa, bbb".toList) := by
  refine ⟨by decide, by decide, ?_⟩
  decide

/-- Witness for `chunk_text_word_preservation`. -/
theorem chunk_text_word_preservation_witness :
    (chunk_text "Hello world".toList 50).flatMap pySplitWs = pySplitWs "Hello world".toList :=
  chunk_text_word_preservation "Hello world".toList 50 (by decide)

theorem adjOver_tail {mc : Nat} {z : List Char} : ∀ (L : List (List Char)),
    AdjOver mc (z :: L) → AdjOver mc L
  | [], _ => trivial
  | _ :: _, h => h.2

theorem adjOver_append_right {mc : Nat} : ∀ (a : List (List Char)) {b : List (List Char)},
    AdjOver mc (a ++ b) → AdjOver mc b
  | [], _, h => h
  | _ :: a, b, h => adjOver_append_right a (adjOver_tail (a ++ b) h)

theorem adjOver_last_pair {mc : Nat} {final rest : List (List Char)}
    {prev current : List Char} (h : AdjOver mc (final ++ current :: rest))
    (hprev : final.getLast? = some prev) : mc < prev.length + 1 + current.length := by
  have e := eq_dropLast_concat_of_getLast? hprev
  rw [e, List.append_assoc] at h
  exact (adjOver_append_right _ h).1

theorem mergeShortGo_id (mc : Nat) (many : Bool) : ∀ (rest final : List (List Char)),
    AdjOver mc (final ++ rest) → mergeShortGo mc many final rest = final ++ rest
  | [], final, _ => by simp [mergeShortGo]
  | [current], final, h => by
    simp only [mergeShortGo]
    split
    · split
      · rename_i prev hprev
        rw [if_neg]
        have hp := adjOver_last_pair h hprev
        simp
        omega
      · rfl
    · rfl
  | current :: next :: rest2, final, h => by
    have hpair : mc < current.length + 1 + next.length :=
      (adjOver_append_right final h).1
    simp only [mergeShortGo]
    rw [if_neg (by
      intro hc
      have := hc.2.2
      simp at this
      omega)]
    rw [mergeShortGo_id mc many (next :: rest2) (final ++ [current]) (by
      rw [List.append_assoc]
      simpa using h)]
    simp

theorem specMergeGo_id (mc : Nat) (many : Bool) : ∀ (rest final : List (List Char)),
    AdjOver mc (final ++ rest) → specMergeGo mc many final rest = final ++ rest
  | [], final, _ => by simp [specMergeGo]
  | [current], final, h => by
    simp only [specMergeGo]
    split
    · split
      · rename_i prev hprev
        rw [if_neg]
        have hp := adjOver_last_pair h hprev
        simp
        omega
      · rfl
    · rfl
  | current :: next :: rest2, final, h => by
    have hpair : mc < current.length + 1 + next.length :=
      (adjOver_append_right final h).1
    have hrec : specMergeGo mc many (final ++ [current]) (next :: rest2) =
        final ++ current :: next :: rest2 := by
      rw [specMergeGo_id mc many (next :: rest2) (final ++ [current]) (by
        rw [List.append_assoc]
        simpa using h)]
      simp
    simp only [specMergeGo]
    split
    · rw [if_neg (by
        intro hc
        simp at hc
        omega)]
      split
      · rename_i prev hprev
        rw [if_neg]
        · exact hrec
        · have hp := adjOver_last_pair h hprev
          simp
          omega
      · exact hrec
    · exact hrec

theorem packSentences_adjOver (mc : Nat) : ∀ (ss : List (List Char)) (cur : List Char),
    (∀ s ∈ ss, SentOK mc s) → CInv mc cur →
    AdjOver mc (packSentences mc ss cur) ∧
      ∀ F, (packSentences mc ss cur).head? = some F → cur.length ≤ F.length
  | [], cur, _, hinv => by
    simp only [packSentences]
    split
    · rename_i hne
      rcases hinv with rfl | ⟨h1, h2, h3⟩
      · exact absurd rfl hne
      · rw [h2]
        exact ⟨trivial, by
          intro F hF
          simp at hF
          rw [hF]⟩
    · exact ⟨trivial, by
        intro F hF
        simp at hF⟩
  | s :: ss, cur, hss, hinv => by
    have hs := hss s (by simp)
    have hss2 : ∀ v ∈ ss, SentOK mc v := fun v hv => hss v (by simp [hv])
    have hsInv : CInv mc s := Or.inr ⟨hs.1, hs.2.1, hs.2.2⟩
    simp only [packSentences]
    split
    · rename_i hcond
      obtain ⟨ih1, ih2⟩ := packSentences_adjOver mc ss s hss2 hsInv
      rcases hinv with rfl | ⟨h1, hstr, h3⟩
      · exact absurd hcond.1 (by simp)
      · rw [hstr]
        constructor
        · cases hres : packSentences mc ss s with
          | nil => trivial
          | cons F t =>
            rw [hres] at ih1 ih2
            have hF := ih2 F (by simp)
            exact ⟨by omega, ih1⟩
        · intro F hF
          simp at hF
          rw [← hF]
    · rename_i hcond
      by_cases hcur : cur = []
      · rw [if_pos hcur]
        obtain ⟨ih1, ih2⟩ := packSentences_adjOver mc ss s hss2 hsInv
        exact ⟨ih1, fun F hF => by
          rw [hcur]
          simp⟩
      · rw [if_neg hcur]
        have hlen : cur.length + 1 + s.length ≤ mc := by
          rcases le_or_lt (cur.length + 1 + s.length) mc with h | h
          · exact h
          · exact absurd ⟨hcur, h⟩ hcond
        rcases hinv with rfl | ⟨h1, hstr, h3⟩
        · exact absurd rfl hcur
        · obtain ⟨ih1, ih2⟩ := packSentences_adjOver mc ss (cur ++ ' ' :: s) hss2
            (CInv_join hcur hstr hs hlen)
          refine ⟨ih1, fun F hF => ?_⟩
          have := ih2 F hF
          simp at this
          omega

/-- C6: on every input, the post-pass implemented in `chunk_text` realises
the claimed merge policy (following chunk preferred, else preceding, kept
only when neither fits): `chunk_text` equals the pipeline with the policy
substituted.  (On greedy-packing output no adjacent merge can fit within
`max_chars`, so both post-passes leave the chunk list unchanged.) -/
theorem chunk_text_merge_policy (text : List Char) (mc : Nat) :
    chunk_text text mc = chunk_text_specMerge text mc := by
  simp only [chunk_text, chunk_text_specMerge]
  split
  · rfl
  · split
    · rfl
    · have hadj : AdjOver mc (packSentences mc (buildSentences mc text) []) :=
        (packSentences_adjOver mc (buildSentences mc text) []
          (buildSentences_SentOK mc text) (Or.inl rfl)).1
      rw [mergeShortGo_id _ _ _ [] (by simpa using hadj),
        specMergeGo_id _ _ _ [] (by simpa using hadj)]

theorem load_vocab_from (c : List Char) :
    ∀ (lines : List (List Char)) (n : Nat) (m : List Char → Option Nat),
    (lines.map rstripNl).Nodup →
    ((List.enumFrom n lines).foldl
        (fun m p => fun k => if k = rstripNl p.2 then some p.1 else m k) m) c =
      if c ∈ lines.map rstripNl then some (n + (lines.map rstripNl).indexOf c) else m c
  | [], n, m, _ => by simp
  | l :: ls, n, m, hnd => by
    have hnd2 : (ls.map rstripNl).Nodup := (List.nodup_cons.1 (by simpa using hnd)).2
    have hnotmem : rstripNl l ∉ ls.map rstripNl := (List.nodup_cons.1 (by simpa using hnd)).1
    rw [show List.enumFrom n (l :: ls) = (n, l) :: List.enumFrom (n + 1) ls from rfl]
    rw [List.foldl_cons]
    rw [load_vocab_from c ls (n + 1) _ hnd2]
    by_cases hmem : c ∈ ls.map rstripNl
    · have hne : ¬ c = rstripNl l := fun he => hnotmem (he ▸ hmem)
      rw [if_pos hmem, if_pos (by simp [hmem])]
      rw [List.map_cons, List.indexOf_cons]
      have hbc : (rstripNl l == c) = false := by
        simp only [beq_eq_false_iff_ne]
        exact fun he => hne he.symm
      rw [hbc]
      simp only [cond_false, Option.some.injEq]
      omega
    · rw [if_neg hmem]
      by_cases heq : c = rstripNl l
      · rw [if_pos heq, if_pos (by simp [heq])]
        rw [List.map_cons, heq, List.indexOf_cons]
        simp
      · rw [if_neg heq, if_neg (by simp [heq, hmem])]

/-- C7 (amended): when the stripped vocabulary lines are pairwise distinct,
loading assigns the character of line `i` the index `i` — so lookup is by
first (equivalently only) occurrence.  The per-character lookup never
raises: every in-vocabulary character maps to its line index and every
unknown character to the fixed default `0`.  `text_to_indices` as a whole
raises only in the final `np.stack`: exactly when `texts` is empty or the
texts have unequal lengths. -/
theorem text_to_indices_of_nodup (lines : List (List Char))
    (h : (lines.map rstripNl).Nodup) (texts : List (List (List Char))) :
    text_to_indices lines texts =
      match texts with
      | [] => none
      | t0 :: ts =>
        if ts.all (fun t => t.length = t0.length) then
          some ((t0 :: ts).map (fun t => t.map (fun c =>
            if c ∈ lines.map rstripNl then (lines.map rstripNl).indexOf c else 0)))
        else none := by
  have hchar : ∀ c, (_load_vocab lines c).getD 0 =
      if c ∈ lines.map rstripNl then (lines.map rstripNl).indexOf c else 0 := by
    intro c
    rw [_load_vocab, show lines.enum = List.enumFrom 0 lines from rfl,
      load_vocab_from c lines 0 _ h]
    by_cases hmem : c ∈ lines.map rstripNl
    · simp [hmem]
    · simp [hmem]
  have hrow : ∀ t : List (List Char),
      t.map (fun c => (_load_vocab lines c).getD 0) =
        t.map (fun c =>
          if c ∈ lines.map rstripNl then (lines.map rstripNl).indexOf c else 0) :=
    fun t => List.map_congr_left (fun c _ => hchar c)
  cases texts with
  | nil => rfl
  | cons t0 ts =>
    simp only [text_to_indices, List.map_cons]
    have hcond : ((ts.map (fun t => t.map (fun c => (_load_vocab lines c).getD 0))).all
        (fun v => v.length = (t0.map (fun c => (_load_vocab lines c).getD 0)).length)) =
        (ts.all (fun t => t.length = t0.length)) := by
      induction ts with
      | nil => rfl
      | cons u us ih =>
        simp only [List.length_map] at ih
        simp [List.all_cons, List.length_map, ih]
    have hmaps : ts.map (fun t => t.map (fun c => (_load_vocab lines c).getD 0)) =
        ts.map (fun t => t.map (fun c =>
          if c ∈ lines.map rstripNl then (lines.map rstripNl).indexOf c else 0)) :=
      List.map_congr_left (fun t _ => hrow t)
    rw [hcond, hrow t0, hmaps]

/-- C7 counterexample: with a duplicate vocabulary line, the character on
line 0 is looked up at index 1, not its own line number 0 — the last
duplicate wins. -/
theorem text_to_indices_dup_cex :
    text_to_indices [['a'], ['a']] [[['a']]] = some [[1]] ∧ (1 : Nat) ≠ 0 := by
  constructor
  · rfl
  · decide

/-- Witness for `text_to_indices_of_nodup`, exercising both the successful
stack (equal-length texts) and the raising stack (ragged texts). -/
theorem text_to_indices_of_nodup_witness :
    text_to_indices [['a'], ['b', '\n']] [[['b'], ['z']], [['a'], ['a']]] = some [[1, 0], [0, 0]] ∧
      text_to_indices [['a'], ['b', '\n']] [[['b'], ['z']], [['a']]] = none ∧
      text_to_indices [['a'], ['b', '\n']] [] = none :=
  ⟨(text_to_indices_of_nodup [['a'], ['b', '\n']] (by decide)
      [[['b'], ['z']], [['a'], ['a']]]).trans (by rfl),
    (text_to_indices_of_nodup [['a'], ['b', '\n']] (by decide)
      [[['b'], ['z']], [['a']]]).trans (by rfl),
    (text_to_indices_of_nodup [['a'], ['b', '\n']] (by decide) []).trans (by rfl)⟩

/-- C8: the code divides the whole WAV file length — 44 header bytes
included — by `2 * sample_rate`, so the reported duration exceeds the true
sample-data duration: at 16000 samples and 16000 Hz it reports
`8011/8000 s` instead of `1 s` (the header bytes counted as if they were
sample data). -/
theorem duration_counts_header_cex :
    durationSecondsSpec 16000 16000 = 1 ∧
      durationSecondsReported 16000 16000 = 8011 / 8000 ∧
      durationSecondsReported 16000 16000 ≠ durationSecondsSpec 16000 16000 := by
  refine ⟨by norm_num [durationSecondsSpec], ?_, ?_⟩
  · norm_num [durationSecondsReported, wavFileByteLength]
  · norm_num [durationSecondsReported, durationSecondsSpec, wavFileByteLength]

/-- In general the reported duration overshoots by `22 / sample_rate`
seconds — the 44 header bytes read as 22 phantom samples. -/
theorem durationSecondsReported_overshoot (n r : Nat) (hr : 0 < r) :
    durationSecondsReported n r = durationSecondsSpec n r + 22 / (r : ℚ) := by
  have hr0 : (r : ℚ) ≠ 0 := by positivity
  field_simp [durationSecondsReported, durationSecondsSpec, wavFileByteLength]
  ring

/-- C9: when the underlying synthesis returns, the shared config's speed is
restored to exactly its prior value; when it raises, the call fails with the
overridden per-request speed still on the shared config. -/
theorem synthesize_async_speed_restore (cfg : EngineConfig) (speed : ℚ)
    (synth : EngineConfig → Option (List Nat)) :
    (∀ audioBytes, synth (EngineConfig.mk speed cfg.sample_rate) = some audioBytes →
      synthesize_async cfg speed synth =
        Except.ok (EngineConfig.mk cfg.speed cfg.sample_rate, audioBytes, cfg.sample_rate,
          (audioBytes.length : ℚ) / ((cfg.sample_rate : ℚ) * 2))) ∧
      (synth (EngineConfig.mk speed cfg.sample_rate) = none →
        synthesize_async cfg speed synth =
          Except.error (EngineConfig.mk speed cfg.sample_rate)) := by
  constructor
  · intro audioBytes h
    simp [synthesize_async, h]
  · intro h
    simp [synthesize_async, h]

/-- Witness for `synthesize_async_speed_restore`: a successful call restores
speed `9/10`; a failing call leaves the overridden speed `2`. -/
theorem synthesize_async_speed_restore_witness :
    synthesize_async (EngineConfig.mk ((9 : ℚ)/10) 24000) 2 (fun _ => some [3, 4]) =
        Except.ok (EngineConfig.mk ((9 : ℚ)/10) 24000, [3, 4], 24000,
          (([3, 4] : List Nat).length : ℚ) / (((24000 : Nat) : ℚ) * 2)) ∧
      synthesize_async (EngineConfig.mk ((9 : ℚ)/10) 24000) 2 (fun _ => none) =
        Except.error (EngineConfig.mk 2 24000) :=
  ⟨(synthesize_async_speed_restore (EngineConfig.mk ((9 : ℚ)/10) 24000) 2
      (fun _ => some [3, 4])).1 [3, 4] rfl,
    (synthesize_async_speed_restore (EngineConfig.mk ((9 : ℚ)/10) 24000) 2
      (fun _ => none)).2 rfl⟩

/-- C10: a request is accepted exactly when the text length is in `[1,500]`,
the speed lies in `[0.25, 2.0]`, the output format is `"wav"`, and any given
`sample_iteration` is non-negative; a request violating any bound is
rejected by validation with no synthesis work (the handler's result does not
depend on the synthesis function at all). -/
theorem validateText_isOk (s : List Char) :
    (validateText s).isOk = true ↔ 1 ≤ s.length ∧ s.length ≤ 500 := by
  simp only [validateText]
  split
  · rename_i h
    simp [Except.isOk, Except.toBool]
    omega
  · split
    · rename_i h1 h2
      simp [Except.isOk, Except.toBool]
      omega
    · rename_i h1 h2
      simp [Except.isOk, Except.toBool]
      omega

theorem validateSpeed_isOk (q : ℚ) :
    (validateSpeed q).isOk = true ↔ 1/4 ≤ q ∧ q ≤ 2 := by
  simp only [validateSpeed]
  split
  · rename_i h
    simp [Except.isOk, Except.toBool]
    intro h2
    linarith
  · split
    · rename_i h1 h2
      simp [Except.isOk, Except.toBool]
      intro h3
      linarith
    · rename_i h1 h2
      simp [Except.isOk, Except.toBool]
      constructor <;> linarith [le_of_not_lt h1, le_of_not_lt h2]

theorem validateFormat_isOk (f : String) :
    (validateFormat f).isOk = true ↔ f = "wav" := by
  simp only [validateFormat]
  split
  · rename_i h
    simp [Except.isOk, Except.toBool, h]
  · rename_i h
    simp [Except.isOk, Except.toBool, h]

theorem validateSampleIteration_isOk : ∀ o : Option Int,
    (validateSampleIteration o).isOk = true ↔ ∀ n : Int, o = some n → 0 ≤ n
  | none => by
    simp [validateSampleIteration, Except.isOk, Except.toBool]
  | some n => by
    simp only [validateSampleIteration]
    split
    · rename_i h
      simp only [Except.isOk, Except.toBool]
      constructor
      · intro h2
        simp at h2
      · intro hall
        exact absurd (hall n rfl) (not_le.2 h)
    · rename_i h
      simp only [Except.isOk, Except.toBool]
      constructor
      · intro _ n2 hn2
        cases hn2
        exact le_of_not_lt h
      · intro _
        trivial

theorem parse_isOk_eq (r : SynthesizeRequestIn) :
    (parseSynthesizeRequest r).isOk =
      ((validateText r.text).isOk && (validateSpeed r.speed).isOk &&
        (validateFormat r.output_format).isOk &&
        (validateSampleIteration r.sample_iteration).isOk) := by
  simp only [parseSynthesizeRequest]
  split
  · rename_i e heq
    rw [heq]
    simp [Except.isOk, Except.toBool]
  · rename_i t heq
    rw [heq]
    split
    · rename_i e2 heq2
      rw [heq2]
      simp [Except.isOk, Except.toBool]
    · rename_i sp heq2
      rw [heq2]
      split
      · rename_i e3 heq3
        rw [heq3]
        simp [Except.isOk, Except.toBool]
      · rename_i f heq3
        rw [heq3]
        split
        · rename_i e4 heq4
          rw [heq4]
          simp [Except.isOk, Except.toBool]
        · rename_i si heq4
          rw [heq4]
          simp [Except.isOk, Except.toBool]

/-- C10: a request is accepted exactly when the text length is in `[1,500]`,
the speed lies in `[0.25, 2.0]`, the output format is `"wav"`, and any given
`sample_iteration` is non-negative; a request violating any bound is
rejected by validation with no synthesis work (the handler's result does not
depend on the synthesis function at all). -/
theorem synthesize_request_validation {α : Type} (r : SynthesizeRequestIn) :
    ((parseSynthesizeRequest r).isOk = true ↔
      (1 ≤ r.text.length ∧ r.text.length ≤ 500 ∧ 1/4 ≤ r.speed ∧ r.speed ≤ 2 ∧
        r.output_format = "wav" ∧ ∀ n : Int, r.sample_iteration = some n → 0 ≤ n)) ∧
      ((parseSynthesizeRequest r).isOk = false →
        ∀ (synth1 synth2 : SynthesizeRequestIn → α),
          handleSynthesize synth1 r = handleSynthesize synth2 r) := by
  constructor
  · rw [parse_isOk_eq]
    simp only [Bool.and_eq_true, validateText_isOk, validateSpeed_isOk, validateFormat_isOk,
      validateSampleIteration_isOk]
    tauto
  · intro h synth1 synth2
    simp only [handleSynthesize]
    cases hp : parseSynthesizeRequest r with
    | ok v =>
      rw [hp] at h
      simp [Except.isOk, Except.toBool] at h
    | error e => rfl

/-- Witness for `synthesize_request_validation`: a well-formed request is
accepted; an empty-text request is rejected identically for any two
synthesis functions. -/
theorem synthesize_request_validation_witness :
    (parseSynthesizeRequest (SynthesizeRequestIn.mk "hi".toList ((9 : ℚ)/10) "wav"
        none none none none none)).isOk = true ∧
      handleSynthesize (fun _ => (1 : Nat)) (SynthesizeRequestIn.mk [] ((9 : ℚ)/10) "wav"
          none none none none none) =
        handleSynthesize (fun _ => (2 : Nat)) (SynthesizeRequestIn.mk [] ((9 : ℚ)/10) "wav"
          none none none none none) := by
  constructor
  · exact (@synthesize_request_validation Nat (SynthesizeRequestIn.mk "hi".toList ((9 : ℚ)/10)
      "wav" none none none none none)).1.mpr
      ⟨by decide, by decide, by norm_num, by norm_num, rfl, fun n hn => by cases hn⟩
  · exact (@synthesize_request_validation Nat (SynthesizeRequestIn.mk [] ((9 : ℚ)/10)
      "wav" none none none none none)).2 rfl _ _

end VietVoice
